import Mathlib

set_option maxRecDepth 100000
set_option maxHeartbeats 2000000

/-!
# RustySecrets — verification of the claims against a shallow embedding

This file embeds the RustySecrets Shamir secret-sharing library in Lean 4.
The modules present in the repository (sss.rs, share_format.rs,
json_share_data.rs) are translated function by function.  The modules that the
crate references but whose sources are absent (gf256.rs, interpolation.rs,
validation.rs, custom_error.rs, the generated share_data.rs, and the external
crates rustc_serialize/base64/protobuf/serde_json/merkle_sigs) are modelled
from the specification; each such definition carries a doc comment saying so.

Rust panics (index out of bounds, unwrap of Err/None) are modelled explicitly
by the dedicated result constructor so that "returns an error" and
"aborts the process" stay distinguishable.
-/

/-! ## The field GF(2^8)

Modelled from the spec: gf256.rs is absent from the sources.  Section 4.1
specifies the AES field GF(2^8) with reduction polynomial
x^8 + x^4 + x^3 + x + 1 (0x11B); the file implements its multiplication with
log/exp tables over the generator 3.  We model addition as XOR (as specified)
and multiplication directly as carry-less binary polynomial multiplication
reduced by 0x11B — the field operation that those tables tabulate. -/

/-- Multiplication by X in GF(2^8): shift left and reduce by 0x11B (283). -/
def xtimeN (b : Nat) : Nat :=
  if 2 * b < 256 then 2 * b else (2 * b) ^^^ 283

/-- Binary (carry-less) multiplication modulo 0x11B, with explicit fuel so the
kernel can evaluate it; fuel 8 suffices for 8-bit inputs. -/
def pmulGo : Nat → Nat → Nat → Nat
  | 0, _, _ => 0
  | f + 1, a, b =>
    if a = 0 then 0
    else (if a % 2 = 1 then b else 0) ^^^ pmulGo f (a / 2) (xtimeN b)

/-- GF(2^8) multiplication on byte values. -/
def pmulN (a b : Nat) : Nat := pmulGo 8 a b

theorem xor_lt_256' {x y : Nat} (hx : x < 256) (hy : y < 256) : x ^^^ y < 256 := by
  have h : (256 : Nat) = 2 ^ 8 := by norm_num
  rw [h] at hx hy ⊢
  exact Nat.xor_lt_two_pow hx hy

theorem two_pow_eight_xor : ∀ c : Fin 256, 256 ^^^ c.val = 256 + c.val := by decide

theorem xor_xor_cancel (a b d : Nat) : (a ^^^ b) ^^^ (a ^^^ d) = b ^^^ d := by
  rw [Nat.xor_comm a b, Nat.xor_assoc, ← Nat.xor_assoc a a d, Nat.xor_self,
    Nat.zero_xor]

theorem xtimeN_lt {b : Nat} (hb : b < 256) : xtimeN b < 256 := by
  unfold xtimeN
  split
  · omega
  · rename_i h
    have h2 : 2 * b - 256 < 256 := by omega
    have h1 : 2 * b = 256 ^^^ (2 * b - 256) := by
      rw [two_pow_eight_xor ⟨2 * b - 256, h2⟩]
      show 2 * b = 256 + (2 * b - 256)
      omega
    have h283 : (283 : Nat) = 256 ^^^ 27 := by decide
    rw [h1, h283, xor_xor_cancel]
    exact xor_lt_256' h2 (by norm_num)

theorem pmulGo_lt {f a b : Nat} (hb : b < 256) : pmulGo f a b < 256 := by
  induction f generalizing a b with
  | zero => simp [pmulGo]
  | succ f ih =>
    unfold pmulGo
    split
    · omega
    · refine xor_lt_256' ?_ (ih (xtimeN_lt hb))
      split <;> omega

theorem pmulN_lt {a b : Nat} (hb : b < 256) : pmulN a b < 256 := pmulGo_lt hb

theorem xor_div_two (a b : Nat) : (a ^^^ b) / 2 = a / 2 ^^^ b / 2 := by
  apply Nat.eq_of_testBit_eq
  intro i
  rw [← Nat.testBit_succ, Nat.testBit_xor, Nat.testBit_xor, ← Nat.testBit_succ,
    ← Nat.testBit_succ]

theorem xor_mod_two (a b : Nat) : (a ^^^ b) % 2 = a % 2 ^^^ b % 2 := by
  have h := Nat.testBit_xor a b 0
  simp only [Nat.testBit_zero] at h
  have ha : a % 2 = 0 ∨ a % 2 = 1 := by omega
  have hb : b % 2 = 0 ∨ b % 2 = 1 := by omega
  rcases ha with h1 | h1 <;> rcases hb with h2 | h2 <;>
    simp [h1, h2] at h <;> simp [h1, h2] <;> omega

/-! ### The mathematical field that the byte operations implement

To prove that the byte-level operations form a field we transfer them along
the binary-expansion map into the quotient ring GF(2)[X]/(X^8+X^4+X^3+X+1). -/

/-- The AES reduction polynomial over GF(2). -/
noncomputable def fPoly : Polynomial (ZMod 2) :=
  Polynomial.X ^ 8 + Polynomial.X ^ 4 + Polynomial.X ^ 3 + Polynomial.X + 1

/-- The quotient ring GF(2)[X]/(fPoly). -/
abbrev GFQ := AdjoinRoot fPoly

/-- Binary expansion of a natural number, evaluated at the root of fPoly. -/
noncomputable def phi (n : Nat) : GFQ :=
  if h : n = 0 then 0
  else ((n % 2 : ℕ) : GFQ) + AdjoinRoot.root fPoly * phi (n / 2)
decreasing_by exact Nat.div_lt_self (Nat.pos_of_ne_zero h) one_lt_two

theorem phi_zero : phi 0 = 0 := by simp [phi]

theorem phi_rec (n : Nat) :
    phi n = ((n % 2 : ℕ) : GFQ) + AdjoinRoot.root fPoly * phi (n / 2) := by
  by_cases h : n = 0
  · subst h; simp [phi_zero]
  · rw [phi]; simp [h]

theorem two_GFQ : (2 : GFQ) = 0 := by
  have h1 : ((2 : ℕ) : GFQ) = algebraMap (ZMod 2) GFQ ((2 : ℕ) : ZMod 2) :=
    (map_natCast (algebraMap (ZMod 2) GFQ) 2).symm
  have h2 : ((2 : ℕ) : ZMod 2) = 0 := by decide
  have h3 : ((2 : ℕ) : GFQ) = (2 : GFQ) := by norm_cast
  rw [← h3, h1, h2, map_zero]

theorem bit_cast_xor {x y : Nat} (hx : x < 2) (hy : y < 2) :
    ((x ^^^ y : Nat) : GFQ) = (x : GFQ) + (y : GFQ) := by
  interval_cases x <;> interval_cases y
  · simp
  · simp
  · simp
  · rw [Nat.xor_self, Nat.cast_zero, Nat.cast_one, one_add_one_eq_two, two_GFQ]

theorem phi_xor : ∀ a b : Nat, phi (a ^^^ b) = phi a + phi b := by
  intro a
  induction a using Nat.strong_induction_on with
  | _ a ih =>
    intro b
    by_cases h : a = 0
    · subst h; simp [phi_zero, Nat.zero_xor]
    · rw [phi_rec (a ^^^ b), xor_mod_two, xor_div_two,
        ih (a / 2) (Nat.div_lt_self (Nat.pos_of_ne_zero h) one_lt_two),
        bit_cast_xor (Nat.mod_lt a two_pos) (Nat.mod_lt b two_pos),
        phi_rec a, phi_rec b]
      ring

theorem phi_two_mul (b : Nat) :
    phi (2 * b) = AdjoinRoot.root fPoly * phi b := by
  rw [phi_rec (2 * b), Nat.mul_mod_right, Nat.mul_div_cancel_left b two_pos]
  simp

theorem phi_283 : phi 283 = 0 := by
  have e : phi 283 =
      1 + AdjoinRoot.root fPoly *
        (1 + AdjoinRoot.root fPoly *
          (AdjoinRoot.root fPoly *
            (1 + AdjoinRoot.root fPoly *
              (1 + AdjoinRoot.root fPoly *
                (AdjoinRoot.root fPoly *
                  (AdjoinRoot.root fPoly * (AdjoinRoot.root fPoly * 1))))))) := by
    rw [phi_rec 283, phi_rec 141, phi_rec 70, phi_rec 35, phi_rec 17, phi_rec 8,
      phi_rec 4, phi_rec 2, phi_rec 1, phi_zero]
    norm_num
  have h0 : AdjoinRoot.root fPoly ^ 8 + AdjoinRoot.root fPoly ^ 4 +
      AdjoinRoot.root fPoly ^ 3 + AdjoinRoot.root fPoly + 1 = 0 := by
    have h := AdjoinRoot.eval₂_root fPoly
    simpa [fPoly] using h
  rw [e]
  linear_combination h0

theorem phi_xtimeN (b : Nat) :
    phi (xtimeN b) = AdjoinRoot.root fPoly * phi b := by
  unfold xtimeN
  split
  · exact phi_two_mul b
  · rw [phi_xor, phi_283, add_zero, phi_two_mul]

theorem phi_pmulGo : ∀ f a b : Nat, a < 2 ^ f →
    phi (pmulGo f a b) = phi a * phi b := by
  intro f
  induction f with
  | zero =>
    intro a b ha
    have : a = 0 := by simpa using ha
    subst this
    simp [pmulGo, phi_zero]
  | succ f ih =>
    intro a b ha
    unfold pmulGo
    by_cases h : a = 0
    · subst h; simp [phi_zero]
    · simp only [h, if_false]
      have hdiv : a / 2 < 2 ^ f := by
        rw [pow_succ] at ha; omega
      rw [phi_xor, ih (a / 2) (xtimeN b) hdiv, phi_xtimeN]
      rcases Nat.mod_two_eq_zero_or_one a with h2 | h2 <;>
        rw [phi_rec a, h2] <;> simp [h2, phi_zero] <;> ring

theorem phi_pmulN {a b : Nat} (ha : a < 256) :
    phi (pmulN a b) = phi a * phi b :=
  phi_pmulGo 8 a b (by norm_num at ha ⊢; exact ha)

/-- The binary-expansion polynomial of a natural number. -/
noncomputable def natPoly (n : Nat) : Polynomial (ZMod 2) :=
  if h : n = 0 then 0
  else Polynomial.C ((n % 2 : ℕ) : ZMod 2) + Polynomial.X * natPoly (n / 2)
decreasing_by exact Nat.div_lt_self (Nat.pos_of_ne_zero h) one_lt_two

theorem natPoly_zero : natPoly 0 = 0 := by simp [natPoly]

theorem natPoly_rec (n : Nat) :
    natPoly n =
      Polynomial.C ((n % 2 : ℕ) : ZMod 2) + Polynomial.X * natPoly (n / 2) := by
  by_cases h : n = 0
  · subst h; simp [natPoly_zero]
  · rw [natPoly]; simp [h]

theorem phi_eq_mk (n : Nat) : phi n = AdjoinRoot.mk fPoly (natPoly n) := by
  induction n using Nat.strong_induction_on with
  | _ n ih =>
    by_cases h : n = 0
    · subst h; simp [phi_zero, natPoly_zero]
    · rw [phi_rec n, natPoly_rec n, map_add, map_mul, AdjoinRoot.mk_X,
        ih (n / 2) (Nat.div_lt_self (Nat.pos_of_ne_zero h) one_lt_two)]
      congr 1

theorem degree_C_add_X_mul {R : Type} [Field R] {p : Polynomial R} {d : ℕ}
    (a : R) (hp : p.degree < (d : WithBot ℕ)) :
    (Polynomial.C a + Polynomial.X * p).degree < ((d + 1 : ℕ) : WithBot ℕ) := by
  refine lt_of_le_of_lt (Polynomial.degree_add_le _ _) (max_lt ?_ ?_)
  · refine lt_of_le_of_lt Polynomial.degree_C_le ?_
    exact_mod_cast WithBot.coe_lt_coe.mpr (Nat.succ_pos d)
  · by_cases hz : p = 0
    · subst hz
      simp only [mul_zero, Polynomial.degree_zero]
      exact WithBot.bot_lt_coe _
    · rw [Polynomial.degree_mul, Polynomial.degree_X]
      have : ((d + 1 : ℕ) : WithBot ℕ) = 1 + (d : WithBot ℕ) := by
        push_cast
        ring
      rw [this]
      exact WithBot.add_lt_add_left (by simp) hp

theorem natPoly_degree_lt : ∀ d n : Nat, n < 2 ^ d →
    (natPoly n).degree < (d : WithBot ℕ) := by
  intro d
  induction d with
  | zero =>
    intro n hn
    have : n = 0 := by simpa using hn
    subst this
    simp only [natPoly_zero, Polynomial.degree_zero]
    exact WithBot.bot_lt_coe _
  | succ d ih =>
    intro n hn
    rw [natPoly_rec n]
    have hdiv : n / 2 < 2 ^ d := by
      rw [pow_succ] at hn; omega
    exact_mod_cast degree_C_add_X_mul _ (ih (n / 2) hdiv)

theorem C_add_X_mul_eq_zero {a : ZMod 2} {p : Polynomial (ZMod 2)}
    (h : Polynomial.C a + Polynomial.X * p = 0) : a = 0 ∧ p = 0 := by
  have h0 : a = 0 := by
    have hc := congrArg (fun q => Polynomial.coeff q 0) h
    simpa [Polynomial.mul_coeff_zero] using hc
  refine ⟨h0, ?_⟩
  ext i
  have hc := congrArg (fun q => Polynomial.coeff q (i + 1)) h
  simpa [Polynomial.coeff_X_mul, h0] using hc

theorem natPoly_eq_zero : ∀ n : Nat, natPoly n = 0 → n = 0 := by
  intro n
  induction n using Nat.strong_induction_on with
  | _ n ih =>
    intro h
    by_cases hz : n = 0
    · exact hz
    · exfalso
      rw [natPoly_rec n] at h
      obtain ⟨h1, h2⟩ := C_add_X_mul_eq_zero h
      have hmod : n % 2 = 0 := by
        rcases Nat.mod_two_eq_zero_or_one n with h' | h'
        · exact h'
        · rw [h'] at h1; simp at h1
      have hdiv : n / 2 = 0 :=
        ih (n / 2) (Nat.div_lt_self (Nat.pos_of_ne_zero hz) one_lt_two) h2
      omega

theorem fPoly_degree : fPoly.degree = 8 := by
  unfold fPoly
  have h4 : (Polynomial.X ^ 4 + Polynomial.X ^ 3 + Polynomial.X + 1 :
      Polynomial (ZMod 2)).degree < (Polynomial.X ^ 8 :
      Polynomial (ZMod 2)).degree := by
    rw [Polynomial.degree_X_pow]
    refine lt_of_le_of_lt (Polynomial.degree_add_le _ _) (max_lt ?_ ?_)
    · refine lt_of_le_of_lt (Polynomial.degree_add_le _ _) (max_lt ?_ ?_)
      · refine lt_of_le_of_lt (Polynomial.degree_add_le _ _) (max_lt ?_ ?_)
        · rw [Polynomial.degree_X_pow]; exact_mod_cast by norm_num
        · rw [Polynomial.degree_X_pow]; exact_mod_cast by norm_num
      · rw [Polynomial.degree_X]; exact_mod_cast by norm_num
    · refine lt_of_le_of_lt Polynomial.degree_one_le ?_
      exact_mod_cast by norm_num
  calc (Polynomial.X ^ 8 + Polynomial.X ^ 4 + Polynomial.X ^ 3 +
        Polynomial.X + 1 : Polynomial (ZMod 2)).degree
      = (Polynomial.X ^ 8 + (Polynomial.X ^ 4 + Polynomial.X ^ 3 +
        Polynomial.X + 1) : Polynomial (ZMod 2)).degree := by ring_nf
    _ = (Polynomial.X ^ 8 : Polynomial (ZMod 2)).degree :=
        Polynomial.degree_add_eq_left_of_degree_lt h4
    _ = 8 := Polynomial.degree_X_pow 8

theorem phi_eq_zero_iff {n : Nat} (hn : n < 256) : phi n = 0 ↔ n = 0 := by
  constructor
  · intro h
    rw [phi_eq_mk, AdjoinRoot.mk_eq_zero] at h
    have hdeg : (natPoly n).degree < fPoly.degree := by
      rw [fPoly_degree]
      exact_mod_cast natPoly_degree_lt 8 n (by norm_num at hn ⊢; exact hn)
    exact natPoly_eq_zero n (Polynomial.eq_zero_of_dvd_of_degree_lt h hdeg)
  · intro h
    subst h
    exact phi_zero

theorem phi_inj {a b : Nat} (ha : a < 256) (hb : b < 256)
    (h : phi a = phi b) : a = b := by
  have hx : phi (a ^^^ b) = 0 := by
    rw [phi_xor, h]
    have : phi b + phi b = 2 * phi b := by ring
    rw [this, two_GFQ, zero_mul]
  have := (phi_eq_zero_iff (xor_lt_256' ha hb)).mp hx
  exact Nat.xor_eq_zero.mp this

/-! ### The byte field GF256 -/

/-- An element of GF(2^8): a byte value. -/
structure GF256 where
  val : Nat
  lt : val < 256

theorem GF256.ext {a b : GF256} (h : a.val = b.val) : a = b := by
  cases a; cases b; simp_all

instance : DecidableEq GF256 := fun a b =>
  decidable_of_iff (a.val = b.val) ⟨GF256.ext, congrArg GF256.val⟩

/-- The packed table of multiplicative inverses in GF(2^8), entry a at byte
position a (entry 0 is 0). -/
def invPacked : Nat := 3566776863222250792575350504665046155069508327501453217101429430621730038043584053371660509702620055860081156466022285956586373576971909210171343659649552507176508005971567067637526818336653057460235767741581454534757369738530565771380035673162616129401273381134793422969875859516904113580246491480877823305346558232134899738800022074717406919707935282309554844169982325935665249148669134080917255765422589041374844979786301241750162074905253618853420688398165348773793897399659421930346683507413494886767272566548764049417490863269423193139537759588741825434151586758978267398985919305201935175793127681620251050240

/-- Multiplicative inverse on byte values, by table lookup. -/
def invN (a : Nat) : Nat := invPacked / 256 ^ a % 256

def gfAdd (a b : GF256) : GF256 := ⟨a.val ^^^ b.val, xor_lt_256' a.lt b.lt⟩

def gfMul (a b : GF256) : GF256 := ⟨pmulN a.val b.val, pmulN_lt b.lt⟩

def gfInv (a : GF256) : GF256 := ⟨invN a.val, Nat.mod_lt _ (by norm_num)⟩

instance : Zero GF256 := ⟨⟨0, by norm_num⟩⟩
instance : One GF256 := ⟨⟨1, by norm_num⟩⟩
instance : Add GF256 := ⟨gfAdd⟩
instance : Mul GF256 := ⟨gfMul⟩
instance : Neg GF256 := ⟨fun a => a⟩
instance : Inv GF256 := ⟨gfInv⟩

theorem gf_val_add (a b : GF256) : (a + b).val = a.val ^^^ b.val := rfl
theorem gf_val_mul (a b : GF256) : (a * b).val = pmulN a.val b.val := rfl
theorem gf_val_zero : (0 : GF256).val = 0 := rfl
theorem gf_val_one : (1 : GF256).val = 1 := rfl

/-- Transfer map into the quotient field model. -/
noncomputable def Phi (a : GF256) : GFQ := phi a.val

theorem Phi_inj {a b : GF256} (h : Phi a = Phi b) : a = b :=
  GF256.ext (phi_inj a.lt b.lt h)

theorem Phi_add (a b : GF256) : Phi (a + b) = Phi a + Phi b := phi_xor _ _

theorem Phi_mul (a b : GF256) : Phi (a * b) = Phi a * Phi b := phi_pmulN a.lt

theorem Phi_zero : Phi (0 : GF256) = 0 := phi_zero

theorem Phi_one : Phi (1 : GF256) = 1 := by
  show phi 1 = 1
  rw [phi_rec 1]
  norm_num [phi_zero]

instance : CommRing GF256 where
  add := gfAdd
  add_assoc a b c := GF256.ext (Nat.xor_assoc a.val b.val c.val)
  zero := ⟨0, by norm_num⟩
  zero_add a := GF256.ext (Nat.zero_xor a.val)
  add_zero a := GF256.ext (Nat.xor_zero a.val)
  add_comm a b := GF256.ext (Nat.xor_comm a.val b.val)
  mul := gfMul
  left_distrib a b c := by
    apply Phi_inj
    rw [Phi_mul, Phi_add, Phi_add, Phi_mul, Phi_mul]
    ring
  right_distrib a b c := by
    apply Phi_inj
    rw [Phi_mul, Phi_add, Phi_add, Phi_mul, Phi_mul]
    ring
  zero_mul a := by
    apply Phi_inj
    rw [Phi_mul, Phi_zero, zero_mul]
  mul_zero a := by
    apply Phi_inj
    rw [Phi_mul, Phi_zero, mul_zero]
  mul_assoc a b c := by
    apply Phi_inj
    rw [Phi_mul, Phi_mul, Phi_mul, Phi_mul]
    ring
  one := ⟨1, by norm_num⟩
  one_mul a := by
    apply Phi_inj
    rw [Phi_mul, Phi_one, one_mul]
  mul_one a := by
    apply Phi_inj
    rw [Phi_mul, Phi_one, mul_one]
  mul_comm a b := by
    apply Phi_inj
    rw [Phi_mul, Phi_mul]
    ring
  neg := fun a => a
  neg_add_cancel a := GF256.ext (Nat.xor_self a.val)
  nsmul := nsmulRec
  zsmul := zsmulRec

theorem gf_neg_eq (a : GF256) : -a = a := rfl

theorem gf_sub_eq_add (a b : GF256) : a - b = a + b := by
  rw [sub_eq_add_neg, gf_neg_eq]

theorem pmul_inv_table : ∀ a : Fin 256, a.val ≠ 0 → pmulN a.val (invN a.val) = 1 := by
  decide

instance : Field GF256 where
  inv := gfInv
  exists_pair_ne := ⟨0, 1, fun h => by
    have := congrArg GF256.val h
    simp [gf_val_zero, gf_val_one] at this⟩
  mul_inv_cancel a ha := by
    apply GF256.ext
    show pmulN a.val (invN a.val) = 1
    refine pmul_inv_table ⟨a.val, a.lt⟩ ?_
    intro h
    exact ha (GF256.ext h)
  inv_zero := by
    apply GF256.ext
    show invN 0 = 0
    decide
  nnqsmul := _
  qsmul := _

/-- Reduce a natural number to a byte, as the Rust u8 casts do. -/
def gfOfNat (n : Nat) : GF256 := ⟨n % 256, Nat.mod_lt _ (by norm_num)⟩

theorem gfOfNat_val {n : Nat} (h : n < 256) : (gfOfNat n).val = n :=
  Nat.mod_eq_of_lt h

theorem gfOfNat_val_eq (a : GF256) : gfOfNat a.val = a :=
  GF256.ext (Nat.mod_eq_of_lt a.lt)

theorem gfOfNat_inj {a b : Nat} (ha : a < 256) (hb : b < 256)
    (h : gfOfNat a = gfOfNat b) : a = b := by
  have := congrArg GF256.val h
  rwa [gfOfNat_val ha, gfOfNat_val hb] at this

/-! ### Polynomial evaluation and Lagrange interpolation over GF256 -/

/-- Horner evaluation of a polynomial given by its coefficient list, low
coefficient first.  Modelled from the spec: interpolation.rs is absent;
section 4.2 specifies evaluation of s + r1 x + ... + r_{k-1} x^{k-1} by
Horner's method. -/
def evalPoly : List GF256 → GF256 → GF256
  | [], _ => 0
  | a :: as, x => a + x * evalPoly as x

theorem evalPoly_nil (x : GF256) : evalPoly [] x = 0 := rfl

theorem evalPoly_cons (a : GF256) (as : List GF256) (x : GF256) :
    evalPoly (a :: as) x = a + x * evalPoly as x := rfl

theorem evalPoly_at_zero (l : List GF256) : evalPoly l 0 = l.headD 0 := by
  cases l with
  | nil => rfl
  | cons a as => simp [evalPoly_cons]

/-- The abstract polynomial with the given coefficient list. -/
noncomputable def listPoly : List GF256 → Polynomial GF256
  | [] => 0
  | a :: as => Polynomial.C a + Polynomial.X * listPoly as

theorem evalPoly_eq_eval (l : List GF256) (x : GF256) :
    evalPoly l x = (listPoly l).eval x := by
  induction l with
  | nil => simp [evalPoly_nil, listPoly]
  | cons a as ih =>
    simp only [evalPoly_cons, listPoly, ih, Polynomial.eval_add,
      Polynomial.eval_mul, Polynomial.eval_C, Polynomial.eval_X]

theorem listPoly_degree_lt (l : List GF256) :
    (listPoly l).degree < (l.length : WithBot ℕ) := by
  induction l with
  | nil =>
    simp only [listPoly, Polynomial.degree_zero, List.length_nil]
    exact WithBot.bot_lt_coe _
  | cons a as ih =>
    have h := degree_C_add_X_mul a ih
    simpa using h

theorem list_sum_range {M : Type} [AddCommMonoid M] (n : Nat) (f : Nat → M) :
    ((List.range n).map f).sum = ∑ j ∈ Finset.range n, f j := by
  induction n with
  | zero => simp
  | succ n ih => rw [List.range_succ, Finset.sum_range_succ, List.map_append,
      List.sum_append, ih]; simp

theorem list_prod_filter_range {M : Type} [CommMonoid M] (n j : Nat)
    (f : Nat → M) :
    (((List.range n).filter (fun m => m ≠ j)).map f).prod =
      ∏ m ∈ (Finset.range n).filter (fun m => m ≠ j), f m := by
  induction n with
  | zero => simp
  | succ n ih =>
    rw [List.range_succ, List.filter_append, Finset.range_succ,
      Finset.filter_insert, List.map_append, List.prod_append, ih]
    by_cases h : n = j
    · simp [h]
    · rw [if_pos h, Finset.prod_insert (by simp)]
      simp only [List.filter_cons, List.filter_nil]
      rw [if_pos (by simpa using h)]
      simp [mul_comm]

/-- Lagrange interpolation at zero, as the spec's decode formula states it:
the sum over points j of y_j times the product over the other points m of
x_m * (x_m - x_j)^-1.  Modelled from the spec: interpolation.rs is absent. -/
def lagrangeGF (pts : List (GF256 × GF256)) : GF256 :=
  ((List.range pts.length).map (fun j =>
    (pts.getD j (0, 0)).2 *
      (((List.range pts.length).filter (fun m => m ≠ j)).map
        (fun m => (pts.getD m (0, 0)).1 *
          ((pts.getD m (0, 0)).1 - (pts.getD j (0, 0)).1)⁻¹)).prod)).sum

theorem getD_map_range {α : Type} (n j : Nat) (f : Nat → α) (d : α)
    (h : j < n) : ((List.range n).map f).getD j d = f j := by
  rw [List.getD_eq_getElem ((List.range n).map f) d (by simpa using h)]
  simp

/-- Correctness of the decode formula: interpolating the values of a
polynomial of degree below k at the points 1..k recovers its constant term. -/
theorem lagrangeGF_correct (coeffs : List GF256) (k : Nat)
    (hlen : coeffs.length = k) (hk1 : 1 ≤ k) (hk255 : k ≤ 255) :
    lagrangeGF ((List.range k).map fun j =>
      (gfOfNat (j + 1), evalPoly coeffs (gfOfNat (j + 1)))) = coeffs.headD 0 := by
  have hinj : Set.InjOn (fun j => gfOfNat (j + 1)) (Finset.range k) := by
    intro a ha b hb h
    simp only [Finset.coe_range, Set.mem_Iio] at ha hb
    have := gfOfNat_inj (by omega) (by omega) h
    omega
  have hdeg : (listPoly coeffs).degree < ((Finset.range k).card : WithBot ℕ) := by
    rw [Finset.card_range, ← hlen]
    exact listPoly_degree_lt coeffs
  have hP := Lagrange.eq_interpolate hinj hdeg
  have hRHS : coeffs.headD 0 =
      ∑ i ∈ Finset.range k, (listPoly coeffs).eval (gfOfNat (i + 1)) *
        ∏ j ∈ (Finset.range k).erase i,
          (gfOfNat (i + 1) - gfOfNat (j + 1))⁻¹ * (0 - gfOfNat (j + 1)) := by
    calc coeffs.headD 0 = evalPoly coeffs 0 := (evalPoly_at_zero coeffs).symm
      _ = (listPoly coeffs).eval 0 := evalPoly_eq_eval coeffs 0
      _ = (Lagrange.interpolate (Finset.range k) (fun j => gfOfNat (j + 1))
            (fun i => (listPoly coeffs).eval (gfOfNat (i + 1)))).eval 0 := by
          rw [← hP]
      _ = _ := by
          rw [Lagrange.interpolate_apply, Polynomial.eval_finset_sum]
          refine Finset.sum_congr rfl ?_
          intro i _
          rw [Polynomial.eval_mul, Polynomial.eval_C]
          congr 1
          show (∏ j ∈ (Finset.range k).erase i,
            Lagrange.basisDivisor (gfOfNat (i + 1)) (gfOfNat (j + 1))).eval 0 = _
          rw [Polynomial.eval_prod]
          refine Finset.prod_congr rfl ?_
          intro j _
          show (Polynomial.C (gfOfNat (i + 1) - gfOfNat (j + 1))⁻¹ *
            (Polynomial.X - Polynomial.C (gfOfNat (j + 1)))).eval 0 = _
          simp
  rw [hRHS]
  unfold lagrangeGF
  have hL : ((List.range k).map fun j =>
      (gfOfNat (j + 1), evalPoly coeffs (gfOfNat (j + 1)))).length = k := by
    simp
  rw [hL, list_sum_range]
  refine Finset.sum_congr rfl ?_
  intro j hj
  have hjk : j < k := Finset.mem_range.mp hj
  rw [getD_map_range k j _ _ hjk, list_prod_filter_range, Finset.filter_ne']
  refine congrArg₂ (· * ·) (evalPoly_eq_eval coeffs (gfOfNat (j + 1))) ?_
  refine Finset.prod_congr rfl ?_
  intro m hm
  have hmk : m < k := Finset.mem_range.mp (Finset.mem_of_mem_erase hm)
  rw [getD_map_range k m _ _ hmk]
  show gfOfNat (m + 1) * (gfOfNat (m + 1) - gfOfNat (j + 1))⁻¹ = _
  rw [zero_sub, gf_neg_eq, gf_sub_eq_add, gf_sub_eq_add,
    add_comm (gfOfNat (m + 1)), mul_comm]

/-! ## Strings and text utilities

Rust strings are modelled as lists of characters. -/

/-- The Unicode White_Space predicate used by Rust's str::trim. -/
def isWS (c : Char) : Bool :=
  (0x9 ≤ c.toNat && c.toNat ≤ 0xD) || c.toNat = 0x20 || c.toNat = 0x85 ||
  c.toNat = 0xA0 || c.toNat = 0x1680 ||
  (0x2000 ≤ c.toNat && c.toNat ≤ 0x200A) || c.toNat = 0x2028 ||
  c.toNat = 0x2029 || c.toNat = 0x202F || c.toNat = 0x205F || c.toNat = 0x3000

/-- Drop leading whitespace, as str::trim_start does. -/
def trimLeft (s : List Char) : List Char := s.dropWhile isWS

/-- Drop trailing whitespace, as str::trim_end does. -/
def trimRight (s : List Char) : List Char := (s.reverse.dropWhile isWS).reverse

/-- str::trim: drop whitespace from both ends. -/
def trim (s : List Char) : List Char := trimRight (trimLeft s)

/-- str::split on a single separator character: the list of fields between
occurrences of the separator (an empty input yields one empty field). -/
def splitOn (sep : Char) : List Char → List (List Char)
  | [] => [[]]
  | c :: rest =>
    match splitOn sep rest with
    | [] => [[]]
    | cur :: parts =>
      if c = sep then [] :: cur :: parts else (c :: cur) :: parts

/-- The decimal digit character for a value below ten. -/
def digitChar (n : Nat) : Char :=
  Char.ofNat (48 + n)

/-- Decimal rendering of a natural number, as Rust's Display for integers;
structural fuel makes it kernel-computable (fuel n + 1 always suffices). -/
def natToCharsGo : Nat → Nat → List Char → List Char
  | 0, _, acc => acc
  | f + 1, n, acc =>
    if n < 10 then digitChar n :: acc
    else natToCharsGo f (n / 10) (digitChar (n % 10) :: acc)

/-- Decimal rendering of a natural number. -/
def natToChars (n : Nat) : List Char := natToCharsGo (n + 1) n []

/-- str::parse::<u8>: an optional leading plus sign, then one or more ASCII
digits, with the value required to fit in eight bits. -/
def parseU8 (s : List Char) : Option Nat :=
  let digits := match s with
    | '+' :: rest => rest
    | _ => s
  if digits = [] then none
  else if digits.all Char.isDigit then
    let v := digits.foldl (fun a c => a * 10 + (c.toNat - 48)) 0
    if v ≤ 255 then some v else none
  else none

theorem parseU8_natToChars : ∀ k : Fin 256, parseU8 (natToChars k.val) = some k.val := by
  decide

theorem natToChars_digits : ∀ k : Fin 256, (natToChars k.val).all
    (fun c => c.isDigit && !isWS c && c ≠ '-') = true := by
  decide

theorem dropWhile_ws_append {ws s : List Char} (h : ∀ c ∈ ws, isWS c) :
    (ws ++ s).dropWhile isWS = s.dropWhile isWS := by
  induction ws with
  | nil => rfl
  | cons c ws ih =>
    have hc : isWS c := h c (List.mem_cons_self c ws)
    simp only [List.cons_append, List.dropWhile_cons, hc, if_true]
    exact ih (fun d hd => h d (List.mem_cons_of_mem c hd))

theorem dropWhile_append_of_ne_nil {p : Char → Bool} {xs : List Char}
    (ys : List Char) (h : xs.dropWhile p ≠ []) :
    (xs ++ ys).dropWhile p = xs.dropWhile p ++ ys := by
  induction xs with
  | nil => simp [List.dropWhile] at h
  | cons c xs ih =>
    by_cases hc : p c
    · simp only [List.cons_append, List.dropWhile_cons, hc, if_true]
      simp only [List.dropWhile_cons, hc, if_true] at h
      exact ih h
    · simp [List.cons_append, List.dropWhile_cons, hc]

theorem trimLeft_ws_append {ws s : List Char} (h : ∀ c ∈ ws, isWS c) :
    trimLeft (ws ++ s) = trimLeft s := dropWhile_ws_append h

theorem trimRight_append_ws {s ws : List Char} (h : ∀ c ∈ ws, isWS c) :
    trimRight (s ++ ws) = trimRight s := by
  unfold trimRight
  rw [List.reverse_append, dropWhile_ws_append (by simp_all)]

theorem trim_ws_invariant {ws ws' s : List Char} (h : ∀ c ∈ ws, isWS c)
    (h' : ∀ c ∈ ws', isWS c) : trim (ws ++ s ++ ws') = trim s := by
  unfold trim
  rw [List.append_assoc, trimLeft_ws_append h]
  by_cases hs : trimLeft s = []
  · have hall : ∀ c ∈ s, isWS c := by
      intro c hc
      have := List.dropWhile_eq_nil_iff.mp hs
      simpa using this c hc
    have h1 : trimLeft (s ++ ws') = [] := by
      unfold trimLeft
      rw [dropWhile_ws_append hall, List.dropWhile_eq_nil_iff.mpr (by simpa using h')]
    rw [h1, hs]
  · unfold trimLeft
    rw [dropWhile_append_of_ne_nil ws' hs]
    exact trimRight_append_ws h'

theorem dropWhile_eq_self_of_none {p : Char → Bool} {l : List Char}
    (h : ∀ c ∈ l, ¬ p c) : l.dropWhile p = l := by
  cases l with
  | nil => rfl
  | cons c rest =>
    rw [List.dropWhile_cons_of_neg]
    simpa using h c (List.mem_cons_self c rest)

theorem trim_of_no_ws {s : List Char} (h : ∀ c ∈ s, ¬ isWS c) : trim s = s := by
  have h1 : trimLeft s = s := dropWhile_eq_self_of_none h
  rw [trim, h1]
  unfold trimRight
  rw [dropWhile_eq_self_of_none (fun c hc => h c (by simpa using hc)),
    List.reverse_reverse]

theorem splitOn_cons (sep c : Char) (rest : List Char) :
    splitOn sep (c :: rest) =
      match splitOn sep rest with
      | [] => [[]]
      | cur :: parts =>
        if c = sep then [] :: cur :: parts else (c :: cur) :: parts := rfl

theorem splitOn_ne_nil (sep : Char) : ∀ s : List Char, splitOn sep s ≠ [] := by
  intro s
  induction s with
  | nil => simp [splitOn]
  | cons c rest ih =>
    rw [splitOn_cons]
    cases hm : splitOn sep rest with
    | nil => simp
    | cons cur parts => by_cases hc : c = sep <;> simp [hc]

theorem splitOn_no_sep {sep : Char} : ∀ {s : List Char},
    (∀ c ∈ s, c ≠ sep) → splitOn sep s = [s] := by
  intro s
  induction s with
  | nil => intro _; rfl
  | cons c rest ih =>
    intro h
    rw [splitOn_cons, ih (fun d hd => h d (List.mem_cons_of_mem c hd))]
    simp only [if_neg (h c (List.mem_cons_self c rest))]

theorem splitOn_append {sep : Char} : ∀ {A : List Char} (rest : List Char),
    (∀ c ∈ A, c ≠ sep) →
    splitOn sep (A ++ sep :: rest) = A :: splitOn sep rest := by
  intro A
  induction A with
  | nil =>
    intro rest _
    show splitOn sep (sep :: rest) = [] :: splitOn sep rest
    rw [splitOn_cons]
    cases hm : splitOn sep rest with
    | nil => exact absurd hm (splitOn_ne_nil sep rest)
    | cons cur parts => simp
  | cons c A ih =>
    intro rest h
    show splitOn sep (c :: (A ++ sep :: rest)) = (c :: A) :: splitOn sep rest
    rw [splitOn_cons, ih rest (fun d hd => h d (List.mem_cons_of_mem c hd))]
    simp only [if_neg (h c (List.mem_cons_self c A))]

theorem splitOn_three {sep : Char} {A B C : List Char}
    (hA : ∀ c ∈ A, c ≠ sep) (hB : ∀ c ∈ B, c ≠ sep) (hC : ∀ c ∈ C, c ≠ sep) :
    splitOn sep (A ++ sep :: (B ++ sep :: C)) = [A, B, C] := by
  rw [splitOn_append _ hA, splitOn_append _ hB, splitOn_no_sep hC]

/-! ## Base64

Models of the two base64 implementations the crate uses: rustc_serialize's
ToBase64/FromBase64 with the standard alphabet and pad disabled (the outer
share body layer), and the base64 crate's standard padded encode/decode (the
inner JSON shamir_data field).  Both are external crates; the alphabet and
padding rules are as the spec states them. -/

/-- The standard base64 alphabet character for a sextet. -/
def b64c (s : Nat) : Char :=
  if s < 26 then Char.ofNat (65 + s)
  else if s < 52 then Char.ofNat (97 + (s - 26))
  else if s < 62 then Char.ofNat (48 + (s - 52))
  else if s = 62 then '+' else '/'

/-- Sextet value of a character for rustc_serialize's FromBase64, which also
accepts the URL-safe alternatives for 62 and 63. -/
def dcR (c : Char) : Option Nat :=
  if 65 ≤ c.toNat && c.toNat ≤ 90 then some (c.toNat - 65)
  else if 97 ≤ c.toNat && c.toNat ≤ 122 then some (c.toNat - 71)
  else if 48 ≤ c.toNat && c.toNat ≤ 57 then some (c.toNat + 4)
  else if c = '+' || c = '-' then some 62
  else if c = '/' || c = '_' then some 63
  else none

/-- Sextet value of a character for the base64 crate's standard decode. -/
def dcS (c : Char) : Option Nat :=
  if 65 ≤ c.toNat && c.toNat ≤ 90 then some (c.toNat - 65)
  else if 97 ≤ c.toNat && c.toNat ≤ 122 then some (c.toNat - 71)
  else if 48 ≤ c.toNat && c.toNat ≤ 57 then some (c.toNat + 4)
  else if c = '+' then some 62
  else if c = '/' then some 63
  else none

/-- Base64 encoding without padding (standard alphabet). -/
def toB64 : List Nat → List Char
  | [] => []
  | [b0] => [b64c (b0 / 4), b64c (b0 % 4 * 16)]
  | [b0, b1] => [b64c (b0 / 4), b64c (b0 % 4 * 16 + b1 / 16), b64c (b1 % 16 * 4)]
  | b0 :: b1 :: b2 :: rest =>
    b64c (b0 / 4) :: b64c (b0 % 4 * 16 + b1 / 16) ::
      b64c (b1 % 16 * 4 + b2 / 64) :: b64c (b2 % 64) :: toB64 rest

/-- The sextet stream of a byte list (the numeric content of toB64). -/
def sexOf : List Nat → List Nat
  | [] => []
  | [b0] => [b0 / 4, b0 % 4 * 16]
  | [b0, b1] => [b0 / 4, b0 % 4 * 16 + b1 / 16, b1 % 16 * 4]
  | b0 :: b1 :: b2 :: rest =>
    b0 / 4 :: (b0 % 4 * 16 + b1 / 16) :: (b1 % 16 * 4 + b2 / 64) ::
      b2 % 64 :: sexOf rest

/-- Rebuild bytes from a sextet stream; a leftover of one sextet is invalid. -/
def sexDecode : List Nat → Option (List Nat)
  | [] => some []
  | [_] => none
  | [s0, s1] => some [s0 * 4 + s1 / 16]
  | [s0, s1, s2] => some [s0 * 4 + s1 / 16, s1 % 16 * 16 + s2 / 4]
  | s0 :: s1 :: s2 :: s3 :: rest =>
    (sexDecode rest).map
      (fun bs => (s0 * 4 + s1 / 16) :: (s1 % 16 * 16 + s2 / 4) ::
        (s2 % 4 * 64 + s3) :: bs)

/-- Decode every character to a sextet, failing on the first invalid one. -/
def dcAll (dc : Char → Option Nat) : List Char → Option (List Nat)
  | [] => some []
  | c :: rest =>
    match dc c, dcAll dc rest with
    | some s, some t => some (s :: t)
    | _, _ => none

/-- Strip trailing padding characters, allowing at most two. -/
def stripPadding (s : List Char) : Option (List Char) :=
  let core := (s.reverse.dropWhile (fun c => c = '=')).reverse
  if s.length - core.length ≤ 2 then some core else none

/-- rustc_serialize FromBase64: ignore CR and LF, strip padding, decode. -/
def fromB64 (s : List Char) : Option (List Nat) :=
  let s1 := s.filter (fun c => !(c = '\r' || c = '\n'))
  match stripPadding s1 with
  | none => none
  | some core =>
    match dcAll dcR core with
    | none => none
    | some sext => sexDecode sext

/-- base64 crate encode: standard alphabet with padding. -/
def toB64Pad (bs : List Nat) : List Char :=
  toB64 bs ++ List.replicate ((3 - bs.length % 3) % 3) '='

/-- base64 crate decode: standard alphabet, padding allowed at the end. -/
def fromB64Pad (s : List Char) : Option (List Nat) :=
  match stripPadding s with
  | none => none
  | some core =>
    match dcAll dcS core with
    | none => none
    | some sext => sexDecode sext

theorem dcR_b64c : ∀ s : Fin 64, dcR (b64c s.val) = some s.val := by decide

theorem dcS_b64c : ∀ s : Fin 64, dcS (b64c s.val) = some s.val := by decide

theorem b64c_plain : ∀ s : Fin 64,
    (b64c s.val ≠ '-' ∧ b64c s.val ≠ '=' ∧ b64c s.val ≠ '\r' ∧
      b64c s.val ≠ '\n' ∧ ¬ isWS (b64c s.val)) := by decide

theorem toB64_mem {bs : List Nat} (hb : ∀ b ∈ bs, b < 256) :
    ∀ c ∈ toB64 bs, ∃ s : Fin 64, c = b64c s.val := by
  induction bs using toB64.induct with
  | case1 => intro c hc; simp [toB64] at hc
  | case2 b0 =>
    intro c hc
    have h0 : b0 < 256 := hb b0 (by simp)
    simp only [toB64, List.mem_cons, List.mem_singleton, List.not_mem_nil] at hc
    rcases hc with h | h | h
    · exact ⟨⟨b0 / 4, by omega⟩, h⟩
    · exact ⟨⟨b0 % 4 * 16, by omega⟩, h⟩
    · exact absurd h (by simp)
  | case3 b0 b1 =>
    intro c hc
    have h0 : b0 < 256 := hb b0 (by simp)
    have h1 : b1 < 256 := hb b1 (by simp)
    simp only [toB64, List.mem_cons, List.not_mem_nil] at hc
    rcases hc with h | h | h | h
    · exact ⟨⟨b0 / 4, by omega⟩, h⟩
    · exact ⟨⟨b0 % 4 * 16 + b1 / 16, by omega⟩, h⟩
    · exact ⟨⟨b1 % 16 * 4, by omega⟩, h⟩
    · exact absurd h (by simp)
  | case4 b0 b1 b2 rest ih =>
    intro c hc
    have h0 : b0 < 256 := hb b0 (by simp)
    have h1 : b1 < 256 := hb b1 (by simp)
    have h2 : b2 < 256 := hb b2 (by simp)
    simp only [toB64, List.mem_cons] at hc
    rcases hc with h | h | h | h | h
    · exact ⟨⟨b0 / 4, by omega⟩, h⟩
    · exact ⟨⟨b0 % 4 * 16 + b1 / 16, by omega⟩, h⟩
    · exact ⟨⟨b1 % 16 * 4 + b2 / 64, by omega⟩, h⟩
    · exact ⟨⟨b2 % 64, by omega⟩, h⟩
    · exact ih (fun b hbm => hb b (by simp [hbm])) c h

theorem dcAll_toB64 {dc : Char → Option Nat}
    (hdc : ∀ s : Fin 64, dc (b64c s.val) = some s.val) :
    ∀ {bs : List Nat}, (∀ b ∈ bs, b < 256) →
    dcAll dc (toB64 bs) = some (sexOf bs) := by
  intro bs
  induction bs using toB64.induct with
  | case1 => intro _; rfl
  | case2 b0 =>
    intro hb
    have h0 : b0 < 256 := hb b0 (by simp)
    show dcAll dc [b64c (b0 / 4), b64c (b0 % 4 * 16)] = _
    rw [dcAll, dcAll, dcAll, hdc ⟨b0 / 4, by omega⟩, hdc ⟨b0 % 4 * 16, by omega⟩]
    rfl
  | case3 b0 b1 =>
    intro hb
    have h0 : b0 < 256 := hb b0 (by simp)
    have h1 : b1 < 256 := hb b1 (by simp)
    show dcAll dc [b64c (b0 / 4), b64c (b0 % 4 * 16 + b1 / 16),
      b64c (b1 % 16 * 4)] = _
    rw [dcAll, dcAll, dcAll, dcAll, hdc ⟨b0 / 4, by omega⟩,
      hdc ⟨b0 % 4 * 16 + b1 / 16, by omega⟩, hdc ⟨b1 % 16 * 4, by omega⟩]
    rfl
  | case4 b0 b1 b2 rest ih =>
    intro hb
    have h0 : b0 < 256 := hb b0 (by simp)
    have h1 : b1 < 256 := hb b1 (by simp)
    have h2 : b2 < 256 := hb b2 (by simp)
    show dcAll dc (b64c (b0 / 4) :: b64c (b0 % 4 * 16 + b1 / 16) ::
      b64c (b1 % 16 * 4 + b2 / 64) :: b64c (b2 % 64) :: toB64 rest) = _
    rw [dcAll, dcAll, dcAll, dcAll, hdc ⟨b0 / 4, by omega⟩,
      hdc ⟨b0 % 4 * 16 + b1 / 16, by omega⟩,
      hdc ⟨b1 % 16 * 4 + b2 / 64, by omega⟩, hdc ⟨b2 % 64, by omega⟩,
      ih (fun b hbm => hb b (by simp [hbm]))]
    rfl

theorem sexDecode_sexOf : ∀ {bs : List Nat}, (∀ b ∈ bs, b < 256) →
    sexDecode (sexOf bs) = some bs := by
  intro bs
  induction bs using sexOf.induct with
  | case1 => intro _; rfl
  | case2 b0 =>
    intro hb
    have h0 : b0 < 256 := hb b0 (by simp)
    show sexDecode [b0 / 4, b0 % 4 * 16] = some [b0]
    rw [sexDecode]
    congr 2
    omega
  | case3 b0 b1 =>
    intro hb
    have h0 : b0 < 256 := hb b0 (by simp)
    have h1 : b1 < 256 := hb b1 (by simp)
    show sexDecode [b0 / 4, b0 % 4 * 16 + b1 / 16, b1 % 16 * 4] = some [b0, b1]
    rw [sexDecode]
    congr 3 <;> omega
  | case4 b0 b1 b2 rest ih =>
    intro hb
    have h0 : b0 < 256 := hb b0 (by simp)
    have h1 : b1 < 256 := hb b1 (by simp)
    have h2 : b2 < 256 := hb b2 (by simp)
    show sexDecode (b0 / 4 :: (b0 % 4 * 16 + b1 / 16) ::
      (b1 % 16 * 4 + b2 / 64) :: b2 % 64 :: sexOf rest) = some (b0 :: b1 :: b2 :: rest)
    rw [sexDecode, ih (fun b hbm => hb b (by simp [hbm]))]
    have e0 : b0 / 4 * 4 + (b0 % 4 * 16 + b1 / 16) / 16 = b0 := by omega
    have e1 : (b0 % 4 * 16 + b1 / 16) % 16 * 16 + (b1 % 16 * 4 + b2 / 64) / 4 = b1 := by
      omega
    have e2 : (b1 % 16 * 4 + b2 / 64) % 4 * 64 + b2 % 64 = b2 := by omega
    simp only [Option.map_some', e0, e1, e2]

theorem dropWhile_append_of_all {p : Char → Bool} {xs : List Char}
    (s : List Char) (h : ∀ c ∈ xs, p c) :
    (xs ++ s).dropWhile p = s.dropWhile p := by
  induction xs with
  | nil => rfl
  | cons c xs ih =>
    have hc : p c := h c (List.mem_cons_self c xs)
    simp only [List.cons_append, List.dropWhile_cons, hc, if_true]
    exact ih (fun d hd => h d (List.mem_cons_of_mem c hd))

theorem stripPadding_of_no_pad {s : List Char} (h : ∀ c ∈ s, c ≠ '=') :
    stripPadding s = some s := by
  unfold stripPadding
  have h1 : s.reverse.dropWhile (fun c => c = '=') = s.reverse := by
    refine dropWhile_eq_self_of_none ?_
    intro c hc
    simpa using h c (by simpa using hc)
  simp [h1]

theorem fromB64_toB64 {bs : List Nat} (hb : ∀ b ∈ bs, b < 256) :
    fromB64 (toB64 bs) = some bs := by
  have hchar := toB64_mem hb
  have hfilter : (toB64 bs).filter (fun c => !(c = '\r' || c = '\n')) = toB64 bs := by
    refine List.filter_eq_self.mpr ?_
    intro c hc
    obtain ⟨s, rfl⟩ := hchar c hc
    have := b64c_plain s
    simp_all
  have hnopad : ∀ c ∈ toB64 bs, c ≠ '=' := by
    intro c hc
    obtain ⟨s, rfl⟩ := hchar c hc
    exact (b64c_plain s).2.1
  unfold fromB64
  rw [hfilter]
  show (match stripPadding (toB64 bs) with
    | none => none
    | some core =>
      match dcAll dcR core with
      | none => none
      | some sext => sexDecode sext) = some bs
  rw [stripPadding_of_no_pad hnopad]
  show (match dcAll dcR (toB64 bs) with
    | none => none
    | some sext => sexDecode sext) = some bs
  rw [dcAll_toB64 dcR_b64c hb]
  exact sexDecode_sexOf hb

theorem toB64_no_pad {bs : List Nat} (hb : ∀ b ∈ bs, b < 256) :
    ∀ c ∈ toB64 bs, c ≠ '=' := by
  intro c hc
  obtain ⟨s, rfl⟩ := toB64_mem hb c hc
  exact (b64c_plain s).2.1

theorem fromB64Pad_toB64Pad {bs : List Nat} (hb : ∀ b ∈ bs, b < 256) :
    fromB64Pad (toB64Pad bs) = some bs := by
  have hstrip : stripPadding (toB64Pad bs) = some (toB64 bs) := by
    unfold stripPadding toB64Pad
    have h1 : (toB64 bs ++ List.replicate ((3 - bs.length % 3) % 3) '=').reverse
        = List.replicate ((3 - bs.length % 3) % 3) '=' ++ (toB64 bs).reverse := by
      rw [List.reverse_append, List.reverse_replicate]
    rw [h1, dropWhile_append_of_all _ (by simp),
      dropWhile_eq_self_of_none (fun c hc => by
        simpa using toB64_no_pad hb c (by simpa using hc)),
      List.reverse_reverse]
    have hlen : (toB64 bs ++ List.replicate ((3 - bs.length % 3) % 3) '=').length
        - (toB64 bs).length ≤ 2 := by
      rw [List.length_append, List.length_replicate]
      omega
    simp only [if_pos hlen]
  unfold fromB64Pad
  rw [hstrip]
  show (match dcAll dcS (toB64 bs) with
    | none => none
    | some sext => sexDecode sext) = some bs
  rw [dcAll_toB64 dcS_b64c hb]
  exact sexDecode_sexOf hb

/-! ## Protobuf ShareData

Modelled from the spec: the generated share_data.rs is absent.  Section 6
specifies the binary body: a record of varint-length-prefixed fields with
tags 1 = shamir_data (bytes), 2 = signature (repeated bytes),
3 = proof (bytes); absent tags mean absent fields; unknown tags are ignored
on parse. -/

structure ShareData where
  shamir_data : List Nat
  signature : List (List Nat)
  proof : Option (List Nat)
deriving DecidableEq

/-- Little-endian base-128 varint encoding, with structural fuel (fuel n
suffices for value n). -/
def varintGo : Nat → Nat → List Nat
  | 0, n => [n % 128]
  | f + 1, n => if n < 128 then [n] else (128 + n % 128) :: varintGo f (n / 128)

def varint (n : Nat) : List Nat := varintGo n n

/-- Read a varint from the front of a byte list. -/
def readVarint : List Nat → Option (Nat × List Nat)
  | [] => none
  | b :: rest =>
    if b < 128 then some (b, rest)
    else
      match readVarint rest with
      | none => none
      | some (v, r) => some (b - 128 + 128 * v, r)

theorem readVarint_varintGo : ∀ f n : Nat, n ≤ f → ∀ rest : List Nat,
    readVarint (varintGo f n ++ rest) = some (n, rest) := by
  intro f
  induction f with
  | zero =>
    intro n hn rest
    have : n = 0 := by omega
    subst this
    rfl
  | succ f ih =>
    intro n hn rest
    rw [varintGo]
    split
    · rename_i h
      simp only [List.cons_append, readVarint, if_pos h]
      rfl
    · rename_i h
      simp only [List.cons_append, readVarint, if_neg (by omega : ¬ 128 + n % 128 < 128)]
      have hih := ih (n / 128) (by omega) rest
      rw [show (varintGo f (n / 128)).append rest = varintGo f (n / 128) ++ rest
        from rfl, hih]
      show some (128 + n % 128 - 128 + 128 * (n / 128), rest) = some (n, rest)
      have : 128 + n % 128 - 128 + 128 * (n / 128) = n := by omega
      rw [this]

theorem readVarint_varint (n : Nat) (rest : List Nat) :
    readVarint (varint n ++ rest) = some (n, rest) :=
  readVarint_varintGo n n le_rfl rest

theorem varintGo_lt : ∀ f n : Nat, ∀ b ∈ varintGo f n, b < 256 := by
  intro f
  induction f with
  | zero => intro n b hb; simp only [varintGo, List.mem_singleton] at hb; omega
  | succ f ih =>
    intro n b hb
    rw [varintGo] at hb
    split at hb
    · simp only [List.mem_singleton] at hb; omega
    · rcases List.mem_cons.mp hb with h | h
      · omega
      · exact ih (n / 128) b h

/-- Serialized encoding of the repeated signature field. -/
def pbEncodeSigs : List (List Nat) → List Nat
  | [] => []
  | chunk :: rest => 18 :: (varint chunk.length ++ chunk ++ pbEncodeSigs rest)

/-- ShareData::write_to_bytes: fields in tag order. -/
def pbEncode (sd : ShareData) : List Nat :=
  10 :: (varint sd.shamir_data.length ++ sd.shamir_data ++
    pbEncodeSigs sd.signature ++
    (match sd.proof with
     | none => []
     | some p => 26 :: (varint p.length ++ p)))

/-- protobuf::parse_from_bytes for ShareData, with fuel bounded by the input
length (each record consumes at least one byte). -/
def pbParseGo : Nat → List Nat → ShareData → Option ShareData
  | _, [], acc => some acc
  | 0, _ :: _, _ => none
  | f + 1, b :: bytes, acc =>
    match readVarint (b :: bytes) with
    | none => none
    | some (tag, r1) =>
      if tag % 8 = 2 then
        match readVarint r1 with
        | none => none
        | some (len, r2) =>
          if len ≤ r2.length then
            let payload := r2.take len
            let rest := r2.drop len
            if tag / 8 = 1 then
              pbParseGo f rest { acc with shamir_data := payload }
            else if tag / 8 = 2 then
              pbParseGo f rest { acc with signature := acc.signature ++ [payload] }
            else if tag / 8 = 3 then
              pbParseGo f rest { acc with proof := some payload }
            else pbParseGo f rest acc
          else none
      else if tag % 8 = 0 then
        match readVarint r1 with
        | none => none
        | some (_, r2) => pbParseGo f r2 acc
      else if tag % 8 = 5 then
        if 4 ≤ r1.length then pbParseGo f (r1.drop 4) acc else none
      else if tag % 8 = 1 then
        if 8 ≤ r1.length then pbParseGo f (r1.drop 8) acc else none
      else none

def pbParse (bytes : List Nat) : Option ShareData :=
  pbParseGo bytes.length bytes ⟨[], [], none⟩

theorem pbParseGo_nil (f : Nat) (acc : ShareData) :
    pbParseGo f [] acc = some acc := by
  cases f <;> rfl

theorem pbParseGo_unsigned (f : Nat) (data : List Nat) (acc : ShareData) :
    pbParseGo (f + 1) (10 :: (varint data.length ++ data)) acc =
      some { acc with shamir_data := data } := by
  rw [pbParseGo]
  have h1 : readVarint (10 :: (varint data.length ++ data)) =
      some (10, varint data.length ++ data) := by
    rw [readVarint]
    simp
  rw [h1]
  show (if 10 % 8 = 2 then _ else _) = _
  rw [if_pos (by norm_num)]
  rw [readVarint_varint data.length data]
  show (if data.length ≤ data.length then _ else _) = _
  rw [if_pos le_rfl]
  show (if 10 / 8 = 1 then _ else _) = _
  rw [if_pos (by norm_num)]
  show pbParseGo f (data.drop data.length)
    { acc with shamir_data := data.take data.length } = _
  rw [List.drop_length, List.take_length, pbParseGo_nil]

theorem pbParse_pbEncode_unsigned (data : List Nat) :
    pbParse (pbEncode ⟨data, [], none⟩) = some ⟨data, [], none⟩ := by
  show pbParseGo (pbEncode ⟨data, [], none⟩).length
    (pbEncode ⟨data, [], none⟩) ⟨[], [], none⟩ = _
  have he : pbEncode ⟨data, [], none⟩ = 10 :: (varint data.length ++ data) := by
    show 10 :: (varint data.length ++ data ++ pbEncodeSigs [] ++ []) = _
    simp [pbEncodeSigs]
  rw [he]
  show pbParseGo ((varint data.length ++ data).length + 1) _ _ = _
  rw [pbParseGo_unsigned]

theorem pbEncode_unsigned_lt (data : List Nat) (hd : ∀ b ∈ data, b < 256) :
    ∀ b ∈ pbEncode ⟨data, [], none⟩, b < 256 := by
  intro b hb
  have he : pbEncode ⟨data, [], none⟩ = 10 :: (varint data.length ++ data) := by
    show 10 :: (varint data.length ++ data ++ pbEncodeSigs [] ++ []) = _
    simp [pbEncodeSigs]
  rw [he] at hb
  rcases List.mem_cons.mp hb with h | h
  · omega
  · rcases List.mem_append.mp h with h2 | h2
    · exact varintGo_lt _ _ b h2
    · exact hd b h2

/-! ## UTF-8 -/

/-- UTF-8 encoding of one character. -/
def utf8EncodeChar (c : Char) : List Nat :=
  let n := c.toNat
  if n < 0x80 then [n]
  else if n < 0x800 then [0xC0 + n / 64, 0x80 + n % 64]
  else if n < 0x10000 then [0xE0 + n / 4096, 0x80 + n / 64 % 64, 0x80 + n % 64]
  else [0xF0 + n / 262144, 0x80 + n / 4096 % 64, 0x80 + n / 64 % 64, 0x80 + n % 64]

/-- str::as_bytes: UTF-8 encoding of a string. -/
def utf8Encode : List Char → List Nat
  | [] => []
  | c :: rest => utf8EncodeChar c ++ utf8Encode rest

/-- A UTF-8 continuation byte. -/
def utf8Cont (b : Nat) : Bool := 0x80 ≤ b && b < 0xC0

/-- Decode a two-byte sequence given the decoder for the remaining bytes. -/
def utf8Dec2 (cont : List Nat → Option (List Char)) (b : Nat) :
    List Nat → Option (List Char)
  | b1 :: r =>
    if utf8Cont b1 then
      (cont r).map (fun s => Char.ofNat ((b - 0xC0) * 64 + (b1 - 0x80)) :: s)
    else none
  | [] => none

/-- Decode a three-byte sequence (with overlong and surrogate checks). -/
def utf8Dec3 (cont : List Nat → Option (List Char)) (b : Nat) :
    List Nat → Option (List Char)
  | b1 :: b2 :: r =>
    let n := (b - 0xE0) * 4096 + (b1 - 0x80) * 64 + (b2 - 0x80)
    if utf8Cont b1 && utf8Cont b2 && decide (0x800 ≤ n) &&
        !(decide (0xD800 ≤ n) && decide (n ≤ 0xDFFF)) then
      (cont r).map (fun s => Char.ofNat n :: s)
    else none
  | _ => none

/-- Decode a four-byte sequence (with overlong and range checks). -/
def utf8Dec4 (cont : List Nat → Option (List Char)) (b : Nat) :
    List Nat → Option (List Char)
  | b1 :: b2 :: b3 :: r =>
    let n := (b - 0xF0) * 262144 + (b1 - 0x80) * 4096 + (b2 - 0x80) * 64 +
      (b3 - 0x80)
    if utf8Cont b1 && utf8Cont b2 && utf8Cont b3 && decide (0x10000 ≤ n) &&
        decide (n ≤ 0x10FFFF) then
      (cont r).map (fun s => Char.ofNat n :: s)
    else none
  | _ => none

/-- Strict UTF-8 decoding with structural fuel (the input length suffices). -/
def utf8DecodeGo : Nat → List Nat → Option (List Char)
  | _, [] => some []
  | 0, _ :: _ => none
  | f + 1, b :: rest =>
    if b < 0x80 then (utf8DecodeGo f rest).map (fun s => Char.ofNat b :: s)
    else if b < 0xC2 then none
    else if b < 0xE0 then utf8Dec2 (utf8DecodeGo f) b rest
    else if b < 0xF0 then utf8Dec3 (utf8DecodeGo f) b rest
    else if b < 0xF5 then utf8Dec4 (utf8DecodeGo f) b rest
    else none

/-- str::from_utf8: strict UTF-8 decoding. -/
def utf8Decode (bytes : List Nat) : Option (List Char) :=
  utf8DecodeGo bytes.length bytes

theorem utf8DecodeGo_nil (f : Nat) : utf8DecodeGo f [] = some [] := by
  cases f <;> rfl

theorem utf8EncodeChar_ascii {c : Char} (h : c.toNat < 128) :
    utf8EncodeChar c = [c.toNat] := by
  simp only [utf8EncodeChar]
  rw [if_pos h]

theorem utf8DecodeGo_ascii : ∀ (s : List Char) (f : Nat),
    (∀ c ∈ s, c.toNat < 128) → (utf8Encode s).length ≤ f →
    utf8DecodeGo f (utf8Encode s) = some s := by
  intro s
  induction s with
  | nil => intro f _ _; exact utf8DecodeGo_nil f
  | cons c rest ih =>
    intro f h hf
    have hc : c.toNat < 128 := h c (List.mem_cons_self c rest)
    have he : utf8Encode (c :: rest) = c.toNat :: utf8Encode rest := by
      show utf8EncodeChar c ++ utf8Encode rest = _
      rw [utf8EncodeChar_ascii hc]
      rfl
    rw [he] at hf ⊢
    cases f with
    | zero => simp at hf
    | succ f =>
      rw [utf8DecodeGo]
      rw [if_pos hc, ih f (fun d hd => h d (List.mem_cons_of_mem c hd))
        (by simpa using hf)]
      simp only [Option.map_some', Char.ofNat_toNat]

theorem utf8Decode_ascii {s : List Char} (h : ∀ c ∈ s, c.toNat < 128) :
    utf8Decode (utf8Encode s) = some s :=
  utf8DecodeGo_ascii s (utf8Encode s).length h le_rfl

/-! ## JSON

A model of serde_json as the crate uses it: to_string on the derived
Serialize for ShareDataJson, and from_str on the derived Deserialize.  The
printer emits exactly serde_json's compact form; the parser is a general
JSON reader (strings with escapes, objects, arrays, literals, numbers),
fuelled by the input length. -/

/-- The ShareDataJson struct of json_share_data.rs. -/
structure ShareDataJson where
  shamir_data : List Char
  signature : Option (List (List Char))
  proof : Option (List Char)
deriving DecidableEq

/-- A parsed JSON value. -/
inductive JVal where
  | str (s : List Char)
  | num (raw : List Char)
  | jbool (b : Bool)
  | null
  | arr (xs : List JVal)
  | obj (fields : List (List Char × JVal))

/-- Lowercase hexadecimal digit. -/
def hexDigit (n : Nat) : Char :=
  if n < 10 then Char.ofNat (48 + n) else Char.ofNat (87 + n)

/-- JSON escaping of one character, as serde_json emits it. -/
def escapeChar (c : Char) : List Char :=
  if c = '"' then ['\\', '"']
  else if c = '\\' then ['\\', '\\']
  else if c = '\n' then ['\\', 'n']
  else if c = '\r' then ['\\', 'r']
  else if c = '\t' then ['\\', 't']
  else if c.toNat = 8 then ['\\', 'b']
  else if c.toNat = 12 then ['\\', 'f']
  else if c.toNat < 32 then
    ['\\', 'u', '0', '0', hexDigit (c.toNat / 16), hexDigit (c.toNat % 16)]
  else [c]

def escapeStr (s : List Char) : List Char :=
  s.foldr (fun c acc => escapeChar c ++ acc) []

/-- A JSON string literal with quotes. -/
def printStr (s : List Char) : List Char := '"' :: (escapeStr s ++ ['"'])

/-- A comma-separated list of JSON string literals. -/
def printStrList : List (List Char) → List Char
  | [] => []
  | [x] => printStr x
  | x :: rest => printStr x ++ ',' :: printStrList rest

/-- serde_json::to_string for ShareDataJson: fields in declaration order,
None as null. -/
def jsonPrintSDJ (j : ShareDataJson) : List Char :=
  "\x7b\"shamir_data\":".toList ++ printStr j.shamir_data ++
  ",\"signature\":".toList ++
  (match j.signature with
   | none => "null".toList
   | some l => '[' :: (printStrList l ++ [']'])) ++
  ",\"proof\":".toList ++
  (match j.proof with
   | none => "null".toList
   | some p => printStr p) ++ ['}']

/-- JSON insignificant whitespace. -/
def jsonWS (c : Char) : Bool := c = ' ' || c = '\t' || c = '\n' || c = '\r'

def skipWS (s : List Char) : List Char := s.dropWhile jsonWS

/-- Value of a hexadecimal digit character. -/
def hexVal (c : Char) : Option Nat :=
  if 48 ≤ c.toNat && c.toNat ≤ 57 then some (c.toNat - 48)
  else if 97 ≤ c.toNat && c.toNat ≤ 102 then some (c.toNat - 87)
  else if 65 ≤ c.toNat && c.toNat ≤ 70 then some (c.toNat - 55)
  else none

/-- Unescaped value of a single-character escape. -/
def escUn (e : Char) : Option Char :=
  if e = '"' then some '"'
  else if e = '\\' then some '\\'
  else if e = '/' then some '/'
  else if e = 'n' then some '\n'
  else if e = 't' then some '\t'
  else if e = 'r' then some '\r'
  else if e = 'b' then some (Char.ofNat 8)
  else if e = 'f' then some (Char.ofNat 12)
  else none

/-- Decode a \\uXXXX escape given the reader for the remaining characters. -/
def psbHex (cont : List Char → Option (List Char × List Char)) :
    List Char → Option (List Char × List Char)
  | h1 :: h2 :: h3 :: h4 :: r =>
    (match hexVal h1, hexVal h2, hexVal h3, hexVal h4 with
     | some a, some b, some hc, some d =>
       let n := a * 4096 + b * 256 + hc * 16 + d
       if 0xD800 ≤ n && n ≤ 0xDFFF then none
       else (cont r).map (fun p => (Char.ofNat n :: p.1, p.2))
     | _, _, _, _ => none)
  | _ => none

/-- Decode one escape sequence after the backslash. -/
def psbEsc (cont : List Char → Option (List Char × List Char)) :
    List Char → Option (List Char × List Char)
  | [] => none
  | e :: rest2 =>
    if e = 'u' then psbHex cont rest2
    else
      (match escUn e with
       | none => none
       | some ch => (cont rest2).map (fun p => (ch :: p.1, p.2)))

/-- Fuelled JSON string body reader (after the opening quote). -/
def psbGo : Nat → List Char → Option (List Char × List Char)
  | 0, _ => none
  | _ + 1, [] => none
  | f + 1, c :: rest =>
    if c = '"' then some ([], rest)
    else if c = '\\' then psbEsc (psbGo f) rest
    else if c.toNat < 32 then none
    else (psbGo f rest).map (fun p => (c :: p.1, p.2))

/-- Parse a JSON string body after the opening quote, returning the string
and the remaining input after the closing quote. -/
def parseStringBody (s : List Char) : Option (List Char × List Char) :=
  psbGo s.length s

def isNumChar (c : Char) : Bool :=
  c.isDigit || c = '-' || c = '+' || c = '.' || c = 'e' || c = 'E'

/-- Loose JSON number token reader. -/
def parseNumber (s : List Char) : Option (JVal × List Char) :=
  let raw := s.takeWhile isNumChar
  if raw = [] then none else some (.num raw, s.dropWhile isNumChar)

/-- Parser mode: a value, the members of an object, or array elements. -/
inductive PMode where
  | val
  | members (acc : List (List Char × JVal))
  | elems (acc : List JVal)

/-- One step of value parsing, with cont the fuelled recursive entry. -/
def parseVal1 (cont : PMode → List Char → Option (JVal × List Char)) :
    List Char → Option (JVal × List Char)
  | [] => none
  | c :: rest =>
    if c = '"' then (parseStringBody rest).map (fun p => (.str p.1, p.2))
    else if c = '{' then
      (match skipWS rest with
       | '}' :: r => some (.obj [], r)
       | s' => cont (.members []) s')
    else if c = '[' then
      (match skipWS rest with
       | ']' :: r => some (.arr [], r)
       | s' => cont (.elems []) s')
    else if c = 'n' then
      (match rest with
       | 'u' :: 'l' :: 'l' :: r => some (.null, r)
       | _ => none)
    else if c = 't' then
      (match rest with
       | 'r' :: 'u' :: 'e' :: r => some (.jbool true, r)
       | _ => none)
    else if c = 'f' then
      (match rest with
       | 'a' :: 'l' :: 's' :: 'e' :: r => some (.jbool false, r)
       | _ => none)
    else parseNumber (c :: rest)

/-- After a member's value: a comma continues the object, a brace closes it. -/
def parseMemAfterVal (cont : PMode → List Char → Option (JVal × List Char))
    (acc : List (List Char × JVal)) (key : List Char) (v : JVal) :
    List Char → Option (JVal × List Char)
  | [] => none
  | c4 :: r4 =>
    if c4 = ',' then cont (.members (acc ++ [(key, v)])) (skipWS r4)
    else if c4 = '}' then some (.obj (acc ++ [(key, v)]), r4)
    else none

/-- After a member's key: expect a colon, then the value. -/
def parseMemAfterKey (cont : PMode → List Char → Option (JVal × List Char))
    (acc : List (List Char × JVal)) (key : List Char) (r1 : List Char) :
    Option (JVal × List Char) :=
  match skipWS r1 with
  | [] => none
  | c2 :: r2 =>
    if c2 = ':' then
      match cont .val r2 with
      | none => none
      | some (v, r3) => parseMemAfterVal cont acc key v (skipWS r3)
    else none

/-- One step of object-member parsing. -/
def parseMem1 (cont : PMode → List Char → Option (JVal × List Char))
    (acc : List (List Char × JVal)) : List Char → Option (JVal × List Char)
  | [] => none
  | c :: rest =>
    if c = '"' then
      match parseStringBody rest with
      | none => none
      | some (key, r1) => parseMemAfterKey cont acc key r1
    else none

/-- One step of array-element parsing. -/
def parseEl1 (cont : PMode → List Char → Option (JVal × List Char))
    (acc : List JVal) (s : List Char) : Option (JVal × List Char) :=
  match cont .val s with
  | none => none
  | some (v, r) =>
    match skipWS r with
    | [] => none
    | c2 :: r2 =>
      if c2 = ',' then cont (.elems (acc ++ [v])) (skipWS r2)
      else if c2 = ']' then some (.arr (acc ++ [v]), r2)
      else none

/-- The fuelled JSON parser. -/
def parseGo : Nat → PMode → List Char → Option (JVal × List Char)
  | 0, _, _ => none
  | f + 1, .val, s => parseVal1 (parseGo f) (skipWS s)
  | f + 1, .members acc, s => parseMem1 (parseGo f) acc s
  | f + 1, .elems acc, s => parseEl1 (parseGo f) acc s

/-- serde_json::from_str seen as a reader of one JSON value followed only by
whitespace. -/
def jsonParse (s : List Char) : Option JVal :=
  match parseGo (s.length + 1) .val s with
  | none => none
  | some (v, rest) => if skipWS rest = [] then some v else none

def strOfJVal : JVal → Option (List Char)
  | .str s => some s
  | _ => none

def strsOf : List JVal → Option (List (List Char))
  | [] => some []
  | v :: r =>
    match v with
    | .str s => (strsOf r).map (fun t => s :: t)
    | _ => none

def optStrsOf : JVal → Option (Option (List (List Char)))
  | .null => some none
  | .arr xs => (strsOf xs).map some
  | _ => none

def optStrOf : JVal → Option (Option (List Char))
  | .null => some none
  | .str s => some (some s)
  | _ => none

/-- Fold the fields of the parsed object as serde's derived visitor does:
duplicate fields are an error, unknown fields are ignored, a missing
shamir_data is an error, missing Option fields default to None. -/
def sdjFromFields : List (List Char × JVal) → Option (List Char) →
    Option (Option (List (List Char))) → Option (Option (List Char)) →
    Option ShareDataJson
  | [], sh, sg, pf =>
    (match sh with
     | none => none
     | some s => some ⟨s, sg.getD none, pf.getD none⟩)
  | (k, v) :: rest, sh, sg, pf =>
    if k = "shamir_data".toList then
      (match sh, strOfJVal v with
       | none, some s => sdjFromFields rest (some s) sg pf
       | _, _ => none)
    else if k = "signature".toList then
      (match sg, optStrsOf v with
       | none, some o => sdjFromFields rest sh (some o) pf
       | _, _ => none)
    else if k = "proof".toList then
      (match pf, optStrOf v with
       | none, some o => sdjFromFields rest sh sg (some o)
       | _, _ => none)
    else sdjFromFields rest sh sg pf

/-- serde_json::from_str for ShareDataJson. -/
def jsonParseSDJ (s : List Char) : Option ShareDataJson :=
  match jsonParse s with
  | some (.obj fields) => sdjFromFields fields none none none
  | _ => none

/-- Characters that print into a JSON string unescaped. -/
def plainStr (s : List Char) : Prop :=
  ∀ c ∈ s, 32 ≤ c.toNat ∧ c ≠ '"' ∧ c ≠ '\\'

instance (s : List Char) : Decidable (plainStr s) := by
  unfold plainStr
  infer_instance

theorem escapeChar_plain {c : Char} (h32 : 32 ≤ c.toNat) (hq : c ≠ '"')
    (hb : c ≠ '\\') : escapeChar c = [c] := by
  unfold escapeChar
  rw [if_neg hq, if_neg hb,
    if_neg (by rintro rfl; exact absurd h32 (by decide)),
    if_neg (by rintro rfl; exact absurd h32 (by decide)),
    if_neg (by rintro rfl; exact absurd h32 (by decide)),
    if_neg (by omega), if_neg (by omega), if_neg (by omega)]

theorem escapeStr_plain : ∀ {s : List Char}, plainStr s → escapeStr s = s := by
  intro s
  induction s with
  | nil => intro _; rfl
  | cons c rest ih =>
    intro h
    obtain ⟨h32, hq, hb⟩ := h c (List.mem_cons_self c rest)
    show escapeChar c ++ escapeStr rest = c :: rest
    rw [escapeChar_plain h32 hq hb, ih (fun d hd => h d (List.mem_cons_of_mem c hd))]
    rfl

theorem psbGo_plain : ∀ {s : List Char} (f : Nat) (rest : List Char),
    plainStr s → s.length + 1 ≤ f →
    psbGo f (s ++ '"' :: rest) = some (s, rest) := by
  intro s
  induction s with
  | nil =>
    intro f rest _ hf
    obtain ⟨f', rfl⟩ : ∃ f', f = f' + 1 := ⟨f - 1, by omega⟩
    show psbGo (f' + 1) ('"' :: rest) = some ([], rest)
    rw [psbGo]
    rw [if_pos rfl]
  | cons c s ih =>
    intro f rest h hf
    obtain ⟨f', rfl⟩ : ∃ f', f = f' + 1 := ⟨f - 1, by omega⟩
    obtain ⟨h32, hq, hb⟩ := h c (List.mem_cons_self c s)
    show psbGo (f' + 1) (c :: (s ++ '"' :: rest)) = some (c :: s, rest)
    rw [psbGo]
    rw [if_neg hq, if_neg hb, if_neg (by omega),
      ih f' rest (fun d hd => h d (List.mem_cons_of_mem c hd))
        (by simp at hf ⊢; omega)]
    rfl

theorem parseStringBody_plain {s : List Char} (rest : List Char)
    (h : plainStr s) : parseStringBody (s ++ '"' :: rest) = some (s, rest) := by
  unfold parseStringBody
  refine psbGo_plain _ rest h ?_
  simp

theorem skipWS_not {c : Char} (r : List Char) (h : jsonWS c = false) :
    skipWS (c :: r) = c :: r := by
  unfold skipWS
  rw [List.dropWhile_cons_of_neg]
  simp [h]

theorem parseGo_val (f : Nat) (s : List Char) :
    parseGo (f + 1) .val s = parseVal1 (parseGo f) (skipWS s) := rfl

theorem parseGo_members (f : Nat) (acc : List (List Char × JVal))
    (s : List Char) :
    parseGo (f + 1) (.members acc) s = parseMem1 (parseGo f) acc s := rfl

theorem parseVal1_str (cont : PMode → List Char → Option (JVal × List Char))
    {s : List Char} (rest : List Char) (h : plainStr s) :
    parseVal1 cont ('"' :: (s ++ '"' :: rest)) = some (.str s, rest) := by
  simp only [parseVal1, if_true]
  rw [parseStringBody_plain rest h]
  rfl

theorem parseVal1_null (cont : PMode → List Char → Option (JVal × List Char))
    (rest : List Char) :
    parseVal1 cont ('n' :: 'u' :: 'l' :: 'l' :: rest) = some (.null, rest) := by
  simp [parseVal1]

theorem parseMem1_key (cont : PMode → List Char → Option (JVal × List Char))
    (acc : List (List Char × JVal)) {key : List Char} (hkey : plainStr key)
    (tail : List Char) :
    parseMem1 cont acc ('"' :: (key ++ '"' :: tail)) =
      parseMemAfterKey cont acc key tail := by
  simp only [parseMem1, if_true]
  rw [parseStringBody_plain tail hkey]

theorem parseMemAfterKey_colon
    (cont : PMode → List Char → Option (JVal × List Char))
    (acc : List (List Char × JVal)) (key : List Char) (r2 : List Char) :
    parseMemAfterKey cont acc key (':' :: r2) =
      (match cont .val r2 with
       | none => none
       | some (v, r3) => parseMemAfterVal cont acc key v (skipWS r3)) := by
  unfold parseMemAfterKey
  rw [skipWS_not _ (by decide)]
  simp

theorem parseMemAfterVal_comma
    (cont : PMode → List Char → Option (JVal × List Char))
    (acc : List (List Char × JVal)) (key : List Char) (v : JVal) (c : Char)
    (r : List Char) (hc : jsonWS c = false) :
    parseMemAfterVal cont acc key v (',' :: c :: r) =
      cont (.members (acc ++ [(key, v)])) (c :: r) := by
  simp only [parseMemAfterVal, if_true]
  rw [skipWS_not _ hc]

theorem parseMemAfterVal_brace
    (cont : PMode → List Char → Option (JVal × List Char))
    (acc : List (List Char × JVal)) (key : List Char) (v : JVal)
    (r : List Char) :
    parseMemAfterVal cont acc key v ('}' :: r) =
      some (.obj (acc ++ [(key, v)]), r) := by
  simp only [parseMemAfterVal, if_true]
  rw [if_neg (by decide)]

/-- Parsing the printed unsigned ShareDataJson object yields its three fields
in order, for any fuel of the shape g + 6. -/
theorem parseGo_print_unsigned (g : Nat) {sd : List Char} (h : plainStr sd) :
    parseGo (g + 6) .val (jsonPrintSDJ ⟨sd, none, none⟩) =
      some (.obj [("shamir_data".toList, .str sd),
        ("signature".toList, .null), ("proof".toList, .null)], []) := by
  have hP : jsonPrintSDJ ⟨sd, none, none⟩ =
      '{' :: ('"' :: ("shamir_data".toList ++ '"' :: ':' ::
        ('"' :: (sd ++ '"' :: ',' ::
          ('"' :: ("signature".toList ++ '"' :: ':' :: 'n' :: 'u' :: 'l' :: 'l' :: ',' ::
            ('"' :: ("proof".toList ++ '"' :: ':' :: 'n' :: 'u' :: 'l' :: 'l' ::
              '}' :: [])))))))) := by
    show "\x7b\"shamir_data\":".toList ++ ('"' :: (escapeStr sd ++ ['"'])) ++
      ",\"signature\":".toList ++ "null".toList ++
      ",\"proof\":".toList ++ "null".toList ++ ['}'] = _
    rw [escapeStr_plain h]
    have k0 : "\x7b\"shamir_data\":".toList =
      ['{', '"', 's', 'h', 'a', 'm', 'i', 'r', '_', 'd', 'a', 't', 'a', '"', ':'] := rfl
    have kc1 : "shamir_data".toList =
      ['s', 'h', 'a', 'm', 'i', 'r', '_', 'd', 'a', 't', 'a'] := rfl
    have k2 : ",\"signature\":".toList =
      [',', '"', 's', 'i', 'g', 'n', 'a', 't', 'u', 'r', 'e', '"', ':'] := rfl
    have kc2 : "signature".toList =
      ['s', 'i', 'g', 'n', 'a', 't', 'u', 'r', 'e'] := rfl
    have k3 : ",\"proof\":".toList = [',', '"', 'p', 'r', 'o', 'o', 'f', '"', ':'] := rfl
    have kc3 : "proof".toList = ['p', 'r', 'o', 'o', 'f'] := rfl
    have kn : "null".toList = ['n', 'u', 'l', 'l'] := rfl
    rw [k0, kc1, k2, kc2, k3, kc3, kn]
    simp only [List.append_assoc, List.cons_append, List.nil_append]
  -- the three member parses, innermost first
  have v3 : parseGo (g + 2) .val
      ('n' :: 'u' :: 'l' :: 'l' :: '}' :: []) = some (.null, '}' :: []) := by
    rw [parseGo_val, skipWS_not _ (by decide)]
    exact parseVal1_null _ _
  have hm3 : parseGo (g + 3)
      (.members [("shamir_data".toList, .str sd), ("signature".toList, .null)])
      ('"' :: ("proof".toList ++ '"' :: ':' :: 'n' :: 'u' :: 'l' :: 'l' :: '}' :: [])) =
      some (.obj [("shamir_data".toList, .str sd), ("signature".toList, .null),
        ("proof".toList, .null)], []) := by
    rw [parseGo_members, parseMem1_key _ _ (by decide) _, parseMemAfterKey_colon, v3]
    show parseMemAfterVal _ _ _ _ (skipWS ('}' :: [])) = _
    rw [skipWS_not _ (by decide), parseMemAfterVal_brace]
    rfl
  have v2 : parseGo (g + 3) .val
      ('n' :: 'u' :: 'l' :: 'l' :: ',' ::
        ('"' :: ("proof".toList ++ '"' :: ':' :: 'n' :: 'u' :: 'l' :: 'l' :: '}' :: []))) =
      some (.null, ',' ::
        ('"' :: ("proof".toList ++ '"' :: ':' :: 'n' :: 'u' :: 'l' :: 'l' :: '}' :: []))) := by
    rw [parseGo_val, skipWS_not _ (by decide)]
    exact parseVal1_null _ _
  have hm2 : parseGo (g + 4)
      (.members [("shamir_data".toList, .str sd)])
      ('"' :: ("signature".toList ++ '"' :: ':' :: 'n' :: 'u' :: 'l' :: 'l' :: ',' ::
        ('"' :: ("proof".toList ++ '"' :: ':' :: 'n' :: 'u' :: 'l' :: 'l' :: '}' :: [])))) =
      some (.obj [("shamir_data".toList, .str sd), ("signature".toList, .null),
        ("proof".toList, .null)], []) := by
    rw [parseGo_members, parseMem1_key _ _ (by decide) _, parseMemAfterKey_colon, v2]
    show parseMemAfterVal _ _ _ _ (skipWS (',' :: _)) = _
    rw [skipWS_not _ (by decide), parseMemAfterVal_comma _ _ _ _ _ _ (by decide)]
    exact hm3
  have v1 : parseGo (g + 4) .val
      ('"' :: (sd ++ '"' :: ',' ::
        ('"' :: ("signature".toList ++ '"' :: ':' :: 'n' :: 'u' :: 'l' :: 'l' :: ',' ::
          ('"' :: ("proof".toList ++ '"' :: ':' :: 'n' :: 'u' :: 'l' :: 'l' :: '}' :: [])))))) =
      some (.str sd, ',' ::
        ('"' :: ("signature".toList ++ '"' :: ':' :: 'n' :: 'u' :: 'l' :: 'l' :: ',' ::
          ('"' :: ("proof".toList ++ '"' :: ':' :: 'n' :: 'u' :: 'l' :: 'l' :: '}' :: []))))) := by
    rw [parseGo_val, skipWS_not _ (by decide)]
    exact parseVal1_str _ _ h
  have hm1 : parseGo (g + 5) (.members [])
      ('"' :: ("shamir_data".toList ++ '"' :: ':' ::
        ('"' :: (sd ++ '"' :: ',' ::
          ('"' :: ("signature".toList ++ '"' :: ':' :: 'n' :: 'u' :: 'l' :: 'l' :: ',' ::
            ('"' :: ("proof".toList ++ '"' :: ':' :: 'n' :: 'u' :: 'l' :: 'l' ::
              '}' :: [])))))))) =
      some (.obj [("shamir_data".toList, .str sd), ("signature".toList, .null),
        ("proof".toList, .null)], []) := by
    rw [parseGo_members, parseMem1_key _ _ (by decide) _, parseMemAfterKey_colon, v1]
    show parseMemAfterVal _ _ _ _ (skipWS (',' :: _)) = _
    rw [skipWS_not _ (by decide), parseMemAfterVal_comma _ _ _ _ _ _ (by decide)]
    exact hm2
  rw [hP, parseGo_val, skipWS_not _ (by decide)]
  have hbrace : parseVal1 (parseGo (g + 5))
      ('{' :: ('"' :: ("shamir_data".toList ++ '"' :: ':' ::
        ('"' :: (sd ++ '"' :: ',' ::
          ('"' :: ("signature".toList ++ '"' :: ':' :: 'n' :: 'u' :: 'l' :: 'l' :: ',' ::
            ('"' :: ("proof".toList ++ '"' :: ':' :: 'n' :: 'u' :: 'l' :: 'l' ::
              '}' :: []))))))))) =
      parseGo (g + 5) (.members [])
        ('"' :: ("shamir_data".toList ++ '"' :: ':' ::
          ('"' :: (sd ++ '"' :: ',' ::
            ('"' :: ("signature".toList ++ '"' :: ':' :: 'n' :: 'u' :: 'l' :: 'l' :: ',' ::
              ('"' :: ("proof".toList ++ '"' :: ':' :: 'n' :: 'u' :: 'l' :: 'l' ::
                '}' :: [])))))))) := by
    rfl
  rw [hbrace]
  exact hm1

/-- Round trip through serde_json for the unsigned ShareDataJson value. -/
theorem jsonParseSDJ_print_unsigned {sd : List Char} (h : plainStr sd) :
    jsonParseSDJ (jsonPrintSDJ ⟨sd, none, none⟩) = some ⟨sd, none, none⟩ := by
  have hlen : 6 ≤ (jsonPrintSDJ ⟨sd, none, none⟩).length + 1 := by
    show 6 ≤ ("\x7b\"shamir_data\":".toList ++ ('"' :: (escapeStr sd ++ ['"'])) ++
      ",\"signature\":".toList ++ "null".toList ++
      ",\"proof\":".toList ++ "null".toList ++ ['}']).length + 1
    simp
  obtain ⟨g, hg⟩ : ∃ g, (jsonPrintSDJ ⟨sd, none, none⟩).length + 1 = g + 6 :=
    ⟨(jsonPrintSDJ ⟨sd, none, none⟩).length + 1 - 6, by omega⟩
  unfold jsonParseSDJ jsonParse
  rw [hg, parseGo_print_unsigned g h]
  rfl

theorem char_toNat_lt (c : Char) : c.toNat < 1114112 := by
  have h := c.valid
  rcases h with h | ⟨h1, h2⟩
  · show c.val.toNat < 1114112
    omega
  · show c.val.toNat < 1114112
    omega

theorem utf8Encode_lt : ∀ (s : List Char), ∀ b ∈ utf8Encode s, b < 256 := by
  intro s
  induction s with
  | nil => intro b hb; simp [utf8Encode] at hb
  | cons c rest ih =>
    intro b hb
    rcases List.mem_append.mp hb with h | h
    · have hv := char_toNat_lt c
      simp only [utf8EncodeChar] at h
      split at h
      · simp at h; omega
      · split at h
        · simp at h; rcases h with h | h <;> omega
        · split at h
          · simp at h; rcases h with h | h | h <;> omega
          · simp at h; rcases h with h | h | h | h <;> omega
    · exact ih b h

/-! ## Error model and result type

Modelled from the spec: custom_error.rs is absent.  Section 7 gives the
abstract error kinds; parse-time errors carry the share's external index.
Rust panics (out-of-bounds indexing and unwrap on Err/None) are a distinct
outcome, kept separate from returned errors. -/

inductive RustyError where
  | badParameter (msg : String)
  | shareParsing (index : Nat) (msg : String)
  | inconsistentShares
  | insufficientShares (provided : Nat) (required : Nat)
  | signatureMissing (index : Nat)
  | signatureInvalid
deriving DecidableEq

/-- The outcome of running a Rust function: a value, a returned error, or a
process abort (panic). -/
inductive RResult (α : Type) where
  | ok (val : α)
  | err (e : RustyError)
  | crash (msg : String)
deriving DecidableEq

/-- True exactly on returned errors. -/
def RResult.isErr {α : Type} : RResult α → Bool
  | .err _ => true
  | _ => false

/-- The index carried by a ShareParsing error, when the outcome is one. -/
def errIndex {α : Type} : RResult α → Option Nat
  | .err (.shareParsing i _) => some i
  | _ => none

/-! ## The merkle_sigs collaborators

Modelled from the spec: merkle_sigs is an external crate.  A proof carries
the lemma hashes, the root hash and the leaf's public key (section 3); its
byte serialization is modelled as a length-prefixed record. -/

structure MerkleProof where
  lemma_hashes : List (List Nat)
  root_hash : List Nat
  value : List Nat
deriving DecidableEq

/-- A share's signature bundle: the one-time signature chunks and the proof. -/
abbrev SigPair : Type := List (List Nat) × MerkleProof

def lenPrefixed (l : List Nat) : List Nat := varint l.length ++ l

def concatBytes : List (List Nat) → List Nat
  | [] => []
  | x :: r => x ++ concatBytes r

/-- Proof::write_to_bytes, modelled as a length-prefixed record. -/
def proofToBytes (p : MerkleProof) : List Nat :=
  varint p.lemma_hashes.length ++
    concatBytes (p.lemma_hashes.map lenPrefixed) ++
    lenPrefixed p.root_hash ++ lenPrefixed p.value

def readLen (bs : List Nat) : Option (List Nat × List Nat) :=
  match readVarint bs with
  | none => none
  | some (n, r) => if n ≤ r.length then some (r.take n, r.drop n) else none

def readChunks : Nat → List Nat → Option (List (List Nat) × List Nat)
  | 0, bs => some ([], bs)
  | c + 1, bs =>
    match readLen bs with
    | none => none
    | some (chunk, r) => (readChunks c r).map (fun p => (chunk :: p.1, p.2))

/-- Proof::parse_from_bytes (the Ok(Some ..) outcome is some; both the Err
and the Ok(None) outcomes are none, since the caller unwraps both). -/
def proofParse (bs : List Nat) : Option MerkleProof :=
  match readVarint bs with
  | none => none
  | some (n, r1) =>
    match readChunks n r1 with
    | none => none
    | some (ls, r2) =>
      match readLen r2 with
      | none => none
      | some (root, r3) =>
        match readLen r3 with
        | none => none
        | some (v, r4) => if r4 = [] then some ⟨ls, root, v⟩ else none

/-- PublicKey::from_vec, modelled as accepting the stored key bytes. -/
def pkFromVec (v : List Nat) : Option (List Nat) := some v

/-! ## share_format.rs -/

/-- Type of encoding to use on returned strings (sss.rs). -/
inductive ShareFormatKind where
  | Protobuf
  | Json
deriving DecidableEq

/-- The parse result type of share_format.rs. -/
abbrev ParsedShare : Type := RResult (List Nat × Nat × Nat × Option SigPair)

instance : DecidableEq (List Nat × Nat × Nat × Option SigPair) :=
  @instDecidableEqProd _ _ inferInstance inferInstance

/-- protobuf share serialization: always sets shamir_data, and the signature
and proof fields when a signature pair is present; the body is base64 with
pad disabled. -/
def profobuf_share_string_from (share : List Nat) (threshold : Nat)
    (share_num : Nat) (signature_pair : Option SigPair) : List Char :=
  let share_protobuf : ShareData :=
    match signature_pair with
    | none => ⟨share, [], none⟩
    | some sp => ⟨share, sp.1, some (proofToBytes sp.2)⟩
  natToChars threshold ++ '-' :: natToChars share_num ++ '-' ::
    toB64 (pbEncode share_protobuf)

/-- JSON share serialization: the ShareDataJson struct with base64-crate
encoded fields, serialized by serde_json and then base64 with pad disabled. -/
def json_share_string_from (share : List Nat) (threshold : Nat)
    (share_num : Nat) (signature_pair : Option SigPair) : List Char :=
  let share_json : ShareDataJson :=
    match signature_pair with
    | none => ⟨toB64Pad share, none, none⟩
    | some sp =>
      ⟨toB64Pad share, some (sp.1.map toB64Pad),
        some (toB64Pad (proofToBytes sp.2))⟩
  natToChars threshold ++ '-' :: natToChars share_num ++ '-' ::
    toB64 (utf8Encode (jsonPrintSDJ share_json))

def share_string_from (share : List Nat) (threshold : Nat) (share_num : Nat)
    (serde_kind : ShareFormatKind) (signature_pair : Option SigPair) :
    List Char :=
  match serde_kind with
  | .Protobuf => profobuf_share_string_from share threshold share_num signature_pair
  | .Json => json_share_string_from share threshold share_num signature_pair

/-- Modelled from the spec: custom_error.rs is absent.  pie2error converts a
ParseIntError into a RustyError; it receives only the integer error, not the
share index, so the ShareParsing error it produces cannot carry the caller's
index and is modelled with index 0. -/
def pie2error : RustyError :=
  RustyError.shareParsing 0 "invalid integer"

def protobuf_share_from_string (raw_data : List Nat) (index : Nat)
    (is_signed : Bool) (k n : Nat) : ParsedShare :=
  match pbParse raw_data with
  | none => .err (.shareParsing index ("Protobuf decoding of data block failed"))
  | some protobuf_data =>
    let share := protobuf_data.shamir_data
    if is_signed then
      match proofParse (protobuf_data.proof.getD []) with
      | none => .crash ("called unwrap on an Err or None value")
      | some p =>
        match pkFromVec p.value with
        | none => .crash ("called unwrap on an Err value")
        | some _ => .ok (share, k, n, some (protobuf_data.signature, p))
    else .ok (share, k, n, none)

def decodeAllPad : List (List Char) → Option (List (List Nat))
  | [] => some []
  | s :: r =>
    match fromB64Pad s, decodeAllPad r with
    | some b, some t => some (b :: t)
    | _, _ => none

def json_share_from_string (raw_data : List Nat) (index : Nat)
    (is_signed : Bool) (k n : Nat) : ParsedShare :=
  match utf8Decode raw_data with
  | none => .crash ("from_utf8 failed: called unwrap on an Err value")
  | some s =>
    match jsonParseSDJ s with
    | none => .crash ("serde_json::from_str failed: called unwrap on an Err value")
    | some json_data =>
      match fromB64Pad json_data.shamir_data with
      | none => .crash ("base64 decode failed: called unwrap on an Err value")
      | some share =>
        if is_signed then
          match json_data.proof with
          | none => .crash ("called unwrap on a None value")
          | some proofStr =>
            match fromB64Pad proofStr with
            | none => .crash ("base64 decode failed: called unwrap on an Err value")
            | some p_bytes =>
              match proofParse p_bytes with
              | none => .crash ("called unwrap on an Err or None value")
              | some p =>
                match pkFromVec p.value with
                | none => .crash ("called unwrap on an Err value")
                | some _ =>
                  match json_data.signature with
                  | none => .crash ("called unwrap on a None value")
                  | some sigStrs =>
                    match decodeAllPad sigStrs with
                    | none => .crash ("base64 decode failed: called unwrap on an Err value")
                    | some signature => .ok (share, k, n, some (signature, p))
        else .ok (share, k, n, none)

/-- The body of share_from_string_format after the trim and split on a
minus sign produced the field list. -/
def share_from_string_parts (parts : List (List Char)) (index : Nat)
    (is_signed : Bool) (share_format : ShareFormatKind) : ParsedShare :=
  if parts.length ≠ 3 then
    .err (.shareParsing index ("Expected 3 parts separated by a minus sign"))
  else
    match parseU8 (parts.getD 0 []) with
    | none => .err pie2error
    | some k =>
      match parseU8 (parts.getD 1 []) with
      | none => .err pie2error
      | some n =>
        let p3 := parts.getD 2 []
        if k < 1 ∨ n < 1 then
          .err (.shareParsing index ("Found illegal parameters K N"))
        else
          match fromB64 p3 with
          | none => .err (.shareParsing index ("Base64 decoding of data block failed"))
          | some raw_data =>
            match share_format with
            | .Protobuf => protobuf_share_from_string raw_data index is_signed k n
            | .Json => json_share_from_string raw_data index is_signed k n

def share_from_string_format (s : List Char) (index : Nat) (is_signed : Bool)
    (share_format : ShareFormatKind) : ParsedShare :=
  share_from_string_parts (splitOn '-' (trim s)) index is_signed share_format

/-- The canonical signing form, as format_share_for_signing builds it. -/
def format_share_for_signing (k i : Nat) (data : List Nat) : List Nat :=
  utf8Encode (natToChars k ++ '-' :: natToChars i ++ '-' :: toB64 data)

/-! ## sss.rs -/

/-- Modelled from the spec: interpolation.rs is absent.  encode evaluates
the polynomial with the given coefficient column at x = 1..n (section 4.2). -/
def encode (col_in : List Nat) (n : Nat) : List Nat :=
  (List.range n).map (fun i => (evalPoly (col_in.map gfOfNat) (gfOfNat (i + 1))).val)

/-- The coefficient column for byte position c: the secret byte, then the
k - 1 random bytes drawn for that position. -/
def col_in (src : List Nat) (k : Nat) (rand : Nat → Nat → Nat) (c : Nat) :
    List Nat :=
  src.getD c 0 :: (List.range (k - 1)).map (rand c)

/-- secret_share: writes the secret byte into col_in[0] (an out-of-bounds
panic when k = 0 and the secret is non-empty), fills the rest with fresh
randomness, encodes each column at x = 1..n and transposes the result. -/
def secret_share (src : List Nat) (k n : Nat) (rand : Nat → Nat → Nat) :
    RResult (List (List Nat)) :=
  if k = 0 ∧ src ≠ [] then .crash ("index out of bounds: the len is 0 but the index is 0")
  else .ok ((List.range n).map (fun i =>
    (List.range src.length).map (fun c =>
      (encode (col_in src k rand c) n).getD i 0)))

/-- generate_shares_format.  The randomness source and the merkle_sigs batch
signer (sign_data_vec) are explicit parameters of the model. -/
def generate_shares_format (k n : Nat) (secret : List Nat) (sign_shares : Bool)
    (share_format : ShareFormatKind) (rand : Nat → Nat → Nat)
    (signer : List (List Nat) → List SigPair) : RResult (List (List Char)) :=
  if k > n then .err (.badParameter ("Threshold K can not be larger than N"))
  else
    match secret_share secret k n rand with
    | .crash m => .crash m
    | .err e => .err e
    | .ok shares =>
      let signatures : Option (List (Option SigPair)) :=
        if sign_shares then
          let shares_to_sign := shares.mapIdx (fun i x =>
            format_share_for_signing k (i + 1) x)
          some ((signer shares_to_sign).map some)
        else none
      .ok ((List.zip (shares.mapIdx (fun i sh => (i, sh)))
        (signatures.getD (List.replicate n none))).map
        (fun p => share_string_from p.1.2 k (p.1.1 + 1) share_format p.2))

/-- generate_shares: the Protobuf-format wrapper. -/
def generate_shares (k n : Nat) (secret : List Nat) (sign_shares : Bool)
    (rand : Nat → Nat → Nat) (signer : List (List Nat) → List SigPair) :
    RResult (List (List Char)) :=
  generate_shares_format k n secret sign_shares ShareFormatKind.Protobuf rand signer

/-- Create share from string (sss.rs): delegates to share_from_string_format. -/
def share_from_string (s : List Char) (index : Nat) (is_signed : Bool)
    (share_format : ShareFormatKind) : ParsedShare :=
  share_from_string_format s index is_signed share_format

/-- Modelled from the spec: validation.rs is absent.  Parse every share with
its position as external index, require a non-empty set, agreement on k,
equal payload lengths, pairwise distinct indices, and at least k shares;
with verify_signatures, require a bundle on every share, equal root hashes
and a valid signature over each canonical signing form (the cryptographic
check itself is the external verifier sigOk). -/
def parseAllShares : List (List Char) → Bool → ShareFormatKind → Nat →
    RResult (List (List Nat × Nat × Nat × Option SigPair))
  | [], _, _, _ => .ok []
  | s :: rest, v, fmt, idx =>
    match share_from_string_format s idx v fmt with
    | .crash m => .crash m
    | .err e => .err e
    | .ok p =>
      match parseAllShares rest v fmt (idx + 1) with
      | .crash m => .crash m
      | .err e => .err e
      | .ok ps => .ok (p :: ps)

def process_and_validate_shares (shares : List (List Char))
    (verify_signatures : Bool) (share_format : ShareFormatKind)
    (sigOk : List Nat → SigPair → Bool) :
    RResult (Nat × List (Nat × List Nat)) :=
  if shares = [] then .err (.badParameter ("No shares provided"))
  else
    match parseAllShares shares verify_signatures share_format 0 with
    | .crash m => .crash m
    | .err e => .err e
    | .ok parsed =>
      let k0 := (parsed.headD ([], 0, 0, none)).2.1
      if ¬ parsed.all (fun p => p.2.1 = k0) then .err .inconsistentShares
      else
        let L0 := (parsed.headD ([], 0, 0, none)).1.length
        if ¬ parsed.all (fun p => p.1.length = L0) then .err .inconsistentShares
        else if ¬ (parsed.map (fun p => p.2.2.1)).Nodup then
          .err .inconsistentShares
        else if parsed.length < k0 then
          .err (.insufficientShares parsed.length k0)
        else if verify_signatures then
          if ¬ parsed.all (fun p => p.2.2.2.isSome) then
            .err (.signatureMissing 0)
          else
            let root0 := ((parsed.headD ([], 0, 0, none)).2.2.2.map
              (fun sp => sp.2.root_hash)).getD []
            if ¬ parsed.all (fun p =>
                (p.2.2.2.map (fun sp => sp.2.root_hash)).getD [] = root0) then
              .err .signatureInvalid
            else if ¬ parsed.all (fun p =>
                match p.2.2.2 with
                | none => false
                | some sp => sigOk (format_share_for_signing k0 p.2.2.1 p.1) sp) then
              .err .signatureInvalid
            else .ok (k0, parsed.map (fun p => (p.2.2.1, p.1)))
        else .ok (k0, parsed.map (fun p => (p.2.2.1, p.1)))

/-- Modelled from the spec: interpolation.rs is absent.  The decode of
section 4.2 on byte pairs, computed in GF(2^8). -/
def lagrange_interpolate (points : List (Nat × Nat)) : Nat :=
  (lagrangeGF (points.map (fun p => (gfOfNat p.1, gfOfNat p.2)))).val

/-- recover_secret_format: validate, then interpolate the first k shares
column by column; the payload length of the first share fixes the length. -/
def recover_secret_format (shares : List (List Char))
    (verify_signatures : Bool) (share_format : ShareFormatKind)
    (sigOk : List Nat → SigPair → Bool) : RResult (List Nat) :=
  match process_and_validate_shares shares verify_signatures share_format sigOk with
  | .crash m => .crash m
  | .err e => .err e
  | .ok (k, shs) =>
    match shs with
    | [] => .crash ("index out of bounds: the len is 0 but the index is 0")
    | s0 :: _ =>
      let slen := s0.2.length
      if (shs.take k).all (fun s => slen ≤ s.2.length) then
        .ok ((List.range slen).map (fun byteindex =>
          lagrange_interpolate ((shs.take k).map
            (fun s => (s.1, s.2.getD byteindex 0)))))
      else .crash ("index out of bounds")

/-- recover_secret: the Protobuf-format wrapper. -/
def recover_secret (shares : List (List Char)) (verify_signatures : Bool)
    (sigOk : List Nat → SigPair → Bool) : RResult (List Nat) :=
  recover_secret_format shares verify_signatures ShareFormatKind.Protobuf sigOk

/-! ## The claims -/

/-- C8: the one-argument-format public wrappers are definitionally the
format-parameterised functions specialised to Protobuf, and sss's
share_from_string delegates to share_from_string_format with the given
format. -/
theorem claim_C8 :
    (∀ k n secret sign rand signer,
      generate_shares k n secret sign rand signer =
        generate_shares_format k n secret sign ShareFormatKind.Protobuf rand signer) ∧
    (∀ shares verify sigOk,
      recover_secret shares verify sigOk =
        recover_secret_format shares verify ShareFormatKind.Protobuf sigOk) ∧
    (∀ s index is_signed fmt,
      share_from_string s index is_signed fmt =
        share_from_string_format s index is_signed fmt) :=
  ⟨fun _ _ _ _ _ _ => rfl, fun _ _ _ => rfl, fun _ _ _ _ => rfl⟩

/-- C2, the code bug: a share whose body field decodes as base64 but is not
valid JSON makes the Json parse path panic on an unwrap instead of returning
a ShareParsing error ("AAAA" decodes to three NUL bytes, which serde_json
rejects). -/
theorem claim_C2_code_bug :
    share_from_string_format "1-1-AAAA".toList 0 false ShareFormatKind.Json =
      RResult.crash ("serde_json::from_str failed: called unwrap on an Err value") := by
  decide

/-- C3, the counterexample: with k = 0 (so k < 1) and a non-empty secret the
generator does not return a BadParameter error; it panics indexing the empty
coefficient column. -/
theorem claim_C3_counterexample :
    generate_shares_format 0 1 [5] false ShareFormatKind.Protobuf
        (fun _ _ => 0) (fun _ => []) =
      RResult.crash ("index out of bounds: the len is 0 but the index is 0") ∧
    RResult.isErr (generate_shares_format 0 1 [5] false ShareFormatKind.Protobuf
        (fun _ _ => 0) (fun _ => [])) = false := by
  constructor <;> decide

/-- C3, amended: of the three spec conditions only k > n is rejected; in
that case generate_shares_format returns the BadParameter error and produces
no shares. -/
theorem claim_C3 (k n : Nat) (secret : List Nat) (sign : Bool)
    (fmt : ShareFormatKind) (rand : Nat → Nat → Nat)
    (signer : List (List Nat) → List SigPair) (h : k > n) :
    generate_shares_format k n secret sign fmt rand signer =
      RResult.err (.badParameter ("Threshold K can not be larger than N")) := by
  unfold generate_shares_format
  rw [if_pos h]

theorem claim_C3_witness :
    2 > 1 ∧
    generate_shares_format 2 1 [5] false ShareFormatKind.Protobuf
        (fun _ _ => 0) (fun _ => []) =
      RResult.err (.badParameter ("Threshold K can not be larger than N")) :=
  ⟨by decide, claim_C3 2 1 [5] false ShareFormatKind.Protobuf
    (fun _ _ => 0) (fun _ => []) (by decide)⟩

/-- C4, the counterexample: a non-numeric K field produces the error of
pie2error, whose ShareParsing index is 0 and not the caller's index 7. -/
theorem claim_C4_counterexample :
    share_from_string_format "x-1-AAAA".toList 7 false ShareFormatKind.Protobuf =
      RResult.err (RustyError.shareParsing 0 "invalid integer") := by
  decide

/-- C4, amended: the wrong-field-count error and the K = 0 or I = 0 error are
ShareParsing errors carrying the caller's index; a K or I field that fails
integer parsing instead yields pie2error's ShareParsing error, which carries
index 0 rather than the caller's index. -/
theorem claim_C4 (s : List Char) (idx : Nat) (is_signed : Bool)
    (fmt : ShareFormatKind) :
    ((splitOn '-' (trim s)).length ≠ 3 →
      share_from_string_format s idx is_signed fmt =
        .err (.shareParsing idx ("Expected 3 parts separated by a minus sign"))) ∧
    (∀ k i, (splitOn '-' (trim s)).length = 3 →
      parseU8 ((splitOn '-' (trim s)).getD 0 []) = some k →
      parseU8 ((splitOn '-' (trim s)).getD 1 []) = some i →
      (k = 0 ∨ i = 0) →
      share_from_string_format s idx is_signed fmt =
        .err (.shareParsing idx ("Found illegal parameters K N"))) ∧
    ((splitOn '-' (trim s)).length = 3 →
      parseU8 ((splitOn '-' (trim s)).getD 0 []) = none →
      share_from_string_format s idx is_signed fmt = .err pie2error) ∧
    (∀ k, (splitOn '-' (trim s)).length = 3 →
      parseU8 ((splitOn '-' (trim s)).getD 0 []) = some k →
      parseU8 ((splitOn '-' (trim s)).getD 1 []) = none →
      share_from_string_format s idx is_signed fmt = .err pie2error) := by
  refine ⟨?_, ?_, ?_, ?_⟩
  · intro h3
    unfold share_from_string_format share_from_string_parts
    rw [if_pos h3]
  · intro k i h3 hk hi hzero
    have hlt : k < 1 ∨ i < 1 := by
      rcases hzero with h | h
      · exact Or.inl (by omega)
      · exact Or.inr (by omega)
    unfold share_from_string_format share_from_string_parts
    rw [if_neg (by omega)]
    simp only [hk, hi]
    rw [if_pos hlt]
  · intro h3 hk
    unfold share_from_string_format share_from_string_parts
    rw [if_neg (by omega)]
    simp only [hk]
  · intro k h3 hk hi
    unfold share_from_string_format share_from_string_parts
    rw [if_neg (by omega)]
    simp only [hk, hi]

theorem claim_C4_witness :
    ((splitOn '-' (trim "21".toList)).length ≠ 3 ∧
      share_from_string_format "21".toList 5 false ShareFormatKind.Protobuf =
        .err (.shareParsing 5 ("Expected 3 parts separated by a minus sign"))) ∧
    ((splitOn '-' (trim "0-1-AAAA".toList)).length = 3 ∧
      parseU8 ((splitOn '-' (trim "0-1-AAAA".toList)).getD 0 []) = some 0 ∧
      share_from_string_format "0-1-AAAA".toList 9 false ShareFormatKind.Protobuf =
        .err (.shareParsing 9 ("Found illegal parameters K N"))) ∧
    (parseU8 ((splitOn '-' (trim "x-1-AAAA".toList)).getD 0 []) = none ∧
      share_from_string_format "x-1-AAAA".toList 4 false ShareFormatKind.Json =
        .err pie2error) :=
  ⟨⟨by decide, (claim_C4 "21".toList 5 false ShareFormatKind.Protobuf).1 (by decide)⟩,
   ⟨by decide, by decide,
    (claim_C4 "0-1-AAAA".toList 9 false ShareFormatKind.Protobuf).2.1 0 1
      (by decide) (by decide) (by decide) (Or.inl rfl)⟩,
   ⟨by decide,
    (claim_C4 "x-1-AAAA".toList 4 false ShareFormatKind.Json).2.2.1
      (by decide) (by decide)⟩⟩

/-- C9: parsing is invariant under surrounding whitespace, because the input
is trimmed before it is split on the minus sign. -/
theorem claim_C9 (s ws ws' : List Char) (idx : Nat) (sgn : Bool)
    (fmt : ShareFormatKind) (hws : ∀ c ∈ ws, isWS c)
    (hws' : ∀ c ∈ ws', isWS c) :
    share_from_string_format (ws ++ s ++ ws') idx sgn fmt =
      share_from_string_format s idx sgn fmt := by
  unfold share_from_string_format
  rw [trim_ws_invariant hws hws']

theorem claim_C9_witness :
    (∀ c ∈ [' ', '\t'], isWS c) ∧ (∀ c ∈ ['\n'], isWS c) ∧
    share_from_string_format ([' ', '\t'] ++ "2-1-CgEH".toList ++ ['\n'])
        3 false ShareFormatKind.Protobuf =
      share_from_string_format "2-1-CgEH".toList 3 false ShareFormatKind.Protobuf :=
  ⟨by decide, by decide,
   claim_C9 "2-1-CgEH".toList [' ', '\t'] ['\n'] 3 false ShareFormatKind.Protobuf
     (by decide) (by decide)⟩

theorem natToChars_facts {K : Nat} (hK : K ≤ 255) :
    ∀ c ∈ natToChars K, c.isDigit ∧ ¬ isWS c ∧ c ≠ '-' := by
  have h := natToChars_digits ⟨K, by omega⟩
  rw [List.all_eq_true] at h
  intro c hc
  have := h c hc
  simp only [Bool.and_eq_true, Bool.not_eq_true', decide_eq_true_eq] at this
  refine ⟨this.1.1, ?_, this.2⟩
  simp [this.1.2]

/-- C10: parsing "K-I-" (an empty body field) unsigned in the Protobuf
format succeeds with an empty payload and the parsed k = K and i = I. -/
theorem claim_C10 (K I idx : Nat) (hK1 : 1 ≤ K) (hK : K ≤ 255)
    (hI1 : 1 ≤ I) (hI : I ≤ 255) :
    share_from_string_format (natToChars K ++ '-' :: (natToChars I ++ ['-']))
        idx false ShareFormatKind.Protobuf =
      RResult.ok ([], K, I, none) := by
  have hKf := natToChars_facts hK
  have hIf := natToChars_facts hI
  have hnoWS : ∀ c ∈ natToChars K ++ '-' :: (natToChars I ++ ['-']), ¬ isWS c := by
    intro c hc
    rcases List.mem_append.mp hc with h | h
    · exact (hKf c h).2.1
    · rcases List.mem_cons.mp h with h | h
      · subst h; decide
      · rcases List.mem_append.mp h with h | h
        · exact (hIf c h).2.1
        · simp only [List.mem_singleton] at h; subst h; decide
  unfold share_from_string_format
  rw [trim_of_no_ws hnoWS,
    splitOn_three (fun c hc => (hKf c hc).2.2) (fun c hc => (hIf c hc).2.2)
      (by intro c hc; simp at hc)]
  unfold share_from_string_parts
  rw [if_neg (by simp)]
  simp only [List.getD_cons_zero, List.getD_cons_succ]
  rw [parseU8_natToChars ⟨K, by omega⟩]
  simp only []
  rw [parseU8_natToChars ⟨I, by omega⟩]
  simp only []
  rw [if_neg (by omega)]
  have hb64 : fromB64 [] = some [] := rfl
  rw [hb64]
  rfl

theorem claim_C10_witness :
    1 ≤ 1 ∧ (1 : Nat) ≤ 255 ∧
    share_from_string_format (natToChars 1 ++ '-' :: (natToChars 1 ++ ['-']))
        0 false ShareFormatKind.Protobuf =
      RResult.ok ([], 1, 1, none) :=
  ⟨le_rfl, by decide,
   claim_C10 1 1 0 (by decide) (by decide) (by decide) (by decide)⟩

/-- The spec's words for the canonical signing form of share i: the byte
string "K-I-" followed by the no-padding base64 of the payload. -/
def canonicalSigningForm (k i : Nat) (P : List Nat) : List Nat :=
  utf8Encode (natToChars k ++ ['-'] ++ natToChars i ++ ['-'] ++ toB64 P)

/-- C6: format_share_for_signing computes exactly the spec's canonical
signing form, and the generator's result depends on the signer only
through its value on the list whose i-th entry (0-based i) is the
canonical signing form of share i+1 with that share's own payload, so the
signer is fed k, the 1-based index and the payload jointly. -/
theorem claim_C6 :
    (∀ k i P, format_share_for_signing k i P = canonicalSigningForm k i P) ∧
    (∀ (k n : Nat) (secret : List Nat) (fmt : ShareFormatKind)
      (rand : Nat → Nat → Nat) (sh : List (List Nat))
      (signer1 signer2 : List (List Nat) → List SigPair),
      secret_share secret k n rand = RResult.ok sh →
      signer1 (sh.mapIdx fun i x => canonicalSigningForm k (i + 1) x) =
        signer2 (sh.mapIdx fun i x => canonicalSigningForm k (i + 1) x) →
      generate_shares_format k n secret true fmt rand signer1 =
        generate_shares_format k n secret true fmt rand signer2) := by
  have hform : ∀ k i (P : List Nat),
      format_share_for_signing k i P = canonicalSigningForm k i P := by
    intro k i P
    unfold format_share_for_signing canonicalSigningForm
    simp [List.append_assoc]
  constructor
  · exact hform
  · intro k n secret fmt rand sh signer1 signer2 hsh heq
    have hfun : (fun (i : Nat) (x : List Nat) => canonicalSigningForm k (i + 1) x) =
        fun i x => format_share_for_signing k (i + 1) x :=
      funext fun i => funext fun x => (hform k (i + 1) x).symm
    rw [hfun] at heq
    have heq' : signer1 (sh.mapIdx fun i x => format_share_for_signing k (i + 1) x) =
        signer2 (sh.mapIdx fun i x => format_share_for_signing k (i + 1) x) := heq
    unfold generate_shares_format
    rw [hsh]
    simp only [heq']

theorem claim_C6_witness :
    (format_share_for_signing 1 1 [7] = canonicalSigningForm 1 1 [7]) ∧
    (secret_share [7] 1 1 (fun _ _ => 0) = RResult.ok [[7]] ∧
      generate_shares_format 1 1 [7] true ShareFormatKind.Protobuf
          (fun _ _ => 0) (fun _ => []) =
        generate_shares_format 1 1 [7] true ShareFormatKind.Protobuf
          (fun _ _ => 0) (fun l => if l.length = 1 then [] else [([], ⟨[], [], []⟩)])) :=
  ⟨claim_C6.1 1 1 [7],
   by decide,
   claim_C6.2 1 1 [7] ShareFormatKind.Protobuf (fun _ _ => 0) [[7]]
     (fun _ => []) (fun l => if l.length = 1 then [] else [([], ⟨[], [], []⟩)])
     (by decide) (by decide)⟩

/-- The serialized body bytes of a share: the protobuf record, or the
UTF-8 of the serde_json rendering, exactly as the two serializers build
them before the base64 layer. -/
def serializedBody (share : List Nat) (signature_pair : Option SigPair) :
    ShareFormatKind → List Nat
  | .Protobuf =>
    pbEncode (match signature_pair with
      | none => ⟨share, [], none⟩
      | some sp => ⟨share, sp.1, some (proofToBytes sp.2)⟩)
  | .Json =>
    utf8Encode (jsonPrintSDJ (match signature_pair with
      | none => ⟨toB64Pad share, none, none⟩
      | some sp =>
        ⟨toB64Pad share, some (sp.1.map toB64Pad),
          some (toB64Pad (proofToBytes sp.2))⟩))

theorem share_string_from_shape (share : List Nat) (threshold share_num : Nat)
    (fmt : ShareFormatKind) (sp : Option SigPair) :
    share_string_from share threshold share_num fmt sp =
      natToChars threshold ++ '-' :: natToChars share_num ++ '-' ::
        toB64 (serializedBody share sp fmt) := by
  cases fmt <;> cases sp <;> rfl

/-- The matrix of share payloads: row i (0-based) is the payload of share
i+1, column c its byte for secret position c. -/
def shareRows (S : List Nat) (k n : Nat) (rand : Nat → Nat → Nat) :
    List (List Nat) :=
  (List.range n).map (fun i =>
    (List.range S.length).map (fun c =>
      (encode (col_in S k rand c) n).getD i 0))

theorem shareRows_length (S : List Nat) (k n : Nat) (rand : Nat → Nat → Nat) :
    (shareRows S k n rand).length = n := by
  simp [shareRows]

theorem secret_share_eq {S : List Nat} {k n : Nat} {rand : Nat → Nat → Nat}
    (hk : ¬ (k = 0 ∧ S ≠ [])) :
    secret_share S k n rand = RResult.ok (shareRows S k n rand) := by
  unfold secret_share shareRows
  rw [if_neg hk]

/-- The per-share signature slots the generator pairs with the payloads. -/
def genSigs (k n : Nat) (S : List Nat) (sign : Bool) (rand : Nat → Nat → Nat)
    (signer : List (List Nat) → List SigPair) : List (Option SigPair) :=
  if sign then
    (signer ((shareRows S k n rand).mapIdx fun i x =>
      format_share_for_signing k (i + 1) x)).map some
  else List.replicate n none

theorem genSigs_length (k n : Nat) (S : List Nat) (sign : Bool)
    (rand : Nat → Nat → Nat) (signer : List (List Nat) → List SigPair)
    (hsig : ∀ l, (signer l).length = l.length) :
    (genSigs k n S sign rand signer).length = n := by
  cases sign
  · simp [genSigs]
  · simp [genSigs, hsig, shareRows_length]

theorem generate_zip_nf (k : Nat) (fmt : ShareFormatKind)
    (shares : List (List Nat)) (q : List (Option SigPair))
    (hq : shares.length ≤ q.length) :
    (List.zip (shares.mapIdx fun i sh => (i, sh)) q).map
      (fun p => share_string_from p.1.2 k (p.1.1 + 1) fmt p.2) =
    shares.mapIdx fun i sh => share_string_from sh k (i + 1) fmt (q.getD i none) := by
  apply List.ext_getElem
  · simp [Nat.min_eq_left hq]
  · intro i h1 h2
    have hi : i < shares.length := by simpa using h2
    have hiq : i < q.length := by omega
    simp only [List.getElem_map, List.getElem_zip, List.getElem_mapIdx]
    rw [List.getD_eq_getElem q none hiq]

theorem generate_shares_nf (k n : Nat) (S : List Nat) (sign : Bool)
    (fmt : ShareFormatKind) (rand : Nat → Nat → Nat)
    (signer : List (List Nat) → List SigPair)
    (hkn : ¬ k > n) (hk : ¬ (k = 0 ∧ S ≠ []))
    (hsig : ∀ l, (signer l).length = l.length) :
    generate_shares_format k n S sign fmt rand signer =
    RResult.ok ((shareRows S k n rand).mapIdx fun i sh =>
      share_string_from sh k (i + 1) fmt
        ((genSigs k n S sign rand signer).getD i none)) := by
  unfold generate_shares_format
  rw [if_neg hkn, secret_share_eq hk]
  show RResult.ok ((List.zip ((shareRows S k n rand).mapIdx fun i sh => (i, sh))
      ((if sign then some ((signer ((shareRows S k n rand).mapIdx fun i x =>
        format_share_for_signing k (i + 1) x)).map some) else none).getD
        (List.replicate n none))).map
      (fun p => share_string_from p.1.2 k (p.1.1 + 1) fmt p.2)) = _
  have hgetd : (if sign then some ((signer ((shareRows S k n rand).mapIdx fun i x =>
      format_share_for_signing k (i + 1) x)).map some) else none).getD
      (List.replicate n none) = genSigs k n S sign rand signer := by
    cases sign <;> rfl
  rw [hgetd, generate_zip_nf k fmt _ _ (by
    rw [genSigs_length k n S sign rand signer hsig, shareRows_length])]

/-- C5: on valid input the generator returns exactly n share strings in
index order; the i-th (0-based i) is "k-(i+1)-B" with the numbers in
decimal and B the no-padding base64 of the serialized body bytes of that
share. -/
theorem claim_C5 (k n : Nat) (S : List Nat) (sign : Bool)
    (fmt : ShareFormatKind) (rand : Nat → Nat → Nat)
    (signer : List (List Nat) → List SigPair)
    (hk : 1 ≤ k) (hkn : k ≤ n) (hn : n ≤ 255) (hS : 1 ≤ S.length)
    (hsig : ∀ l, (signer l).length = l.length) :
    ∃ strs : List (List Char),
      generate_shares_format k n S sign fmt rand signer = RResult.ok strs ∧
      strs.length = n ∧
      ∀ i, i < n → strs.getD i [] =
        natToChars k ++ '-' :: natToChars (i + 1) ++ '-' ::
          toB64 (serializedBody ((shareRows S k n rand).getD i [])
            ((genSigs k n S sign rand signer).getD i none) fmt) := by
  refine ⟨_, generate_shares_nf k n S sign fmt rand signer
    (by omega) (by rintro ⟨rfl, -⟩; omega) hsig, ?_, ?_⟩
  · simp [shareRows_length]
  · intro i hi
    have hlen : ((shareRows S k n rand).mapIdx fun i sh =>
        share_string_from sh k (i + 1) fmt
          ((genSigs k n S sign rand signer).getD i none)).length = n := by
      simp [shareRows_length]
    have hi' : i < ((shareRows S k n rand).mapIdx fun i sh =>
        share_string_from sh k (i + 1) fmt
          ((genSigs k n S sign rand signer).getD i none)).length := by omega
    rw [List.getD_eq_getElem _ [] hi', List.getElem_mapIdx,
      share_string_from_shape]
    congr 2
    rw [List.getD_eq_getElem _ [] (by rw [shareRows_length]; omega)]

theorem claim_C5_witness :
    ∃ strs : List (List Char),
      generate_shares_format 1 1 [7] false ShareFormatKind.Protobuf
        (fun _ _ => 0) (fun l => l.map (fun _ => ([], ⟨[], [], []⟩))) =
        RResult.ok strs ∧
      strs.length = 1 ∧
      ∀ i, i < 1 → strs.getD i [] =
        natToChars 1 ++ '-' :: natToChars (i + 1) ++ '-' ::
          toB64 (serializedBody
            ((shareRows [7] 1 1 (fun _ _ => 0)).getD i [])
            ((genSigs 1 1 [7] false (fun _ _ => 0)
              (fun l => l.map (fun _ => ([], ⟨[], [], []⟩)))).getD i none)
            ShareFormatKind.Protobuf) :=
  claim_C5 1 1 [7] false ShareFormatKind.Protobuf (fun _ _ => 0)
    (fun l => l.map (fun _ => ([], ⟨[], [], []⟩)))
    (by decide) (by decide) (by decide) (by decide) (fun l => by simp)

theorem parseAllShares_length (l : List (List Char)) (v : Bool)
    (fmt : ShareFormatKind) : ∀ (idx : Nat) (ps),
    parseAllShares l v fmt idx = RResult.ok ps → ps.length = l.length := by
  induction l with
  | nil =>
    intro idx ps h
    simp only [parseAllShares] at h
    cases h
    rfl
  | cons s rest ih =>
    intro idx ps h
    simp only [parseAllShares] at h
    cases hs : share_from_string_format s idx v fmt with
    | crash m => rw [hs] at h; cases h
    | err e => rw [hs] at h; cases h
    | ok p =>
      rw [hs] at h
      cases hr : parseAllShares rest v fmt (idx + 1) with
      | crash m => rw [hr] at h; cases h
      | err e => rw [hr] at h; cases h
      | ok ps' =>
        rw [hr] at h
        cases h
        simp [ih (idx + 1) ps' hr]

/-- What an accepted validation run guarantees about its output: a
non-empty share list with all payloads of the first share's length. -/
theorem validate_post (shares : List (List Char)) (v : Bool)
    (fmt : ShareFormatKind) (sigOk : List Nat → SigPair → Bool)
    (k : Nat) (shs : List (Nat × List Nat))
    (h : process_and_validate_shares shares v fmt sigOk = RResult.ok (k, shs)) :
    shs ≠ [] ∧ ∀ s ∈ shs, s.2.length = (shs.headD (0, [])).2.length := by
  have main : ∀ (parsed : List (List Nat × Nat × Nat × Option SigPair)),
      parsed ≠ [] →
      (∀ p ∈ parsed, p.1.length = (parsed.headD ([], 0, 0, none)).1.length) →
      shs = parsed.map (fun p => (p.2.2.1, p.1)) →
      shs ≠ [] ∧ ∀ s ∈ shs, s.2.length = (shs.headD (0, [])).2.length := by
    rintro parsed hne hall rfl
    cases parsed with
    | nil => exact absurd rfl hne
    | cons p0 prest =>
      refine ⟨by simp, ?_⟩
      intro s hs
      obtain ⟨p, hp, rfl⟩ := List.mem_map.mp hs
      simpa using hall p hp
  unfold process_and_validate_shares at h
  split at h
  · cases h
  · rename_i h0
    split at h
    · cases h
    · cases h
    · rename_i parsed hp
      have hplen : parsed.length = shares.length :=
        parseAllShares_length shares v fmt 0 parsed hp
      have hpne : parsed ≠ [] := by
        intro he
        rw [he] at hplen
        exact h0 (List.eq_nil_of_length_eq_zero hplen.symm)
      simp only [] at h
      split at h
      · cases h
      · rename_i hkagree
        split at h
        · cases h
        · rename_i hlenagree
          rw [not_not] at hlenagree
          simp only [List.all_eq_true, decide_eq_true_eq] at hlenagree
          split at h
          · cases h
          · split at h
            · cases h
            · split at h
              · split at h
                · cases h
                · split at h
                  · cases h
                  · split at h
                    · cases h
                    · injection h with h1
                      injection h1 with hk1 hshs
                      exact main parsed hpne hlenagree hshs.symm
              · injection h with h1
                injection h1 with hk1 hshs
                exact main parsed hpne hlenagree hshs.symm

/-- An accepted validation run determines the recovery output: the
interpolation of the first k validated shares at each of the first
share's byte positions. -/
theorem recover_of_validate (shares : List (List Char)) (v : Bool)
    (fmt : ShareFormatKind) (sigOk : List Nat → SigPair → Bool)
    (k : Nat) (shs : List (Nat × List Nat))
    (h : process_and_validate_shares shares v fmt sigOk = RResult.ok (k, shs)) :
    recover_secret_format shares v fmt sigOk =
      RResult.ok ((List.range (shs.headD (0, [])).2.length).map (fun c =>
        lagrange_interpolate ((shs.take k).map (fun s => (s.1, s.2.getD c 0))))) := by
  obtain ⟨hne, hlen⟩ := validate_post shares v fmt sigOk k shs h
  unfold recover_secret_format
  rw [h]
  cases shs with
  | nil => exact absurd rfl hne
  | cons s0 rest =>
    have hall : ((s0 :: rest).take k).all
        (fun s => decide (s0.2.length ≤ s.2.length)) = true := by
      simp only [List.all_eq_true, decide_eq_true_eq]
      intro s hs
      have := hlen s (List.mem_of_mem_take hs)
      simp only [List.headD_cons] at this
      omega
    simp only [List.headD_cons]
    rw [if_pos hall]

/-- C7: on any accepted share set the recovery interpolates, for each of
the L byte positions of the first validated share, the pairs
(index, payload byte) of the first k validated shares only, and the
secret it returns has length exactly L. -/
theorem claim_C7 (shares : List (List Char)) (v : Bool)
    (fmt : ShareFormatKind) (sigOk : List Nat → SigPair → Bool)
    (k : Nat) (shs : List (Nat × List Nat))
    (h : process_and_validate_shares shares v fmt sigOk = RResult.ok (k, shs)) :
    recover_secret_format shares v fmt sigOk =
      RResult.ok ((List.range (shs.headD (0, [])).2.length).map (fun c =>
        lagrange_interpolate ((shs.take k).map (fun s => (s.1, s.2.getD c 0))))) ∧
    ((List.range (shs.headD (0, [])).2.length).map (fun c =>
      lagrange_interpolate ((shs.take k).map (fun s => (s.1, s.2.getD c 0))))).length =
      (shs.headD (0, [])).2.length :=
  ⟨recover_of_validate shares v fmt sigOk k shs h, by simp⟩

theorem claim_C7_witness :
    recover_secret_format ["1-1-CgEH".toList] false ShareFormatKind.Protobuf
        (fun _ _ => true) =
      RResult.ok ((List.range (([((1 : Nat), [(7 : Nat)])].headD (0, [])).2.length)).map
        (fun c => lagrange_interpolate (([((1 : Nat), [(7 : Nat)])].take 1).map
          (fun s => (s.1, s.2.getD c 0))))) ∧
    ((List.range (([((1 : Nat), [(7 : Nat)])].headD (0, [])).2.length)).map
      (fun c => lagrange_interpolate (([((1 : Nat), [(7 : Nat)])].take 1).map
        (fun s => (s.1, s.2.getD c 0))))).length =
      ([((1 : Nat), [(7 : Nat)])].headD (0, [])).2.length :=
  claim_C7 ["1-1-CgEH".toList] false ShareFormatKind.Protobuf (fun _ _ => true)
    1 [(1, [7])] (by decide)

theorem b64c_ascii : ∀ s : Fin 64, (b64c s.val).toNat < 128 ∧
    32 ≤ (b64c s.val).toNat ∧ b64c s.val ≠ '"' ∧ b64c s.val ≠ '\\' := by
  decide

theorem toB64Pad_mem {bs : List Nat} (hb : ∀ b ∈ bs, b < 256) :
    ∀ c ∈ toB64Pad bs, c = '=' ∨ ∃ s : Fin 64, c = b64c s.val := by
  intro c hc
  unfold toB64Pad at hc
  rcases List.mem_append.mp hc with h | h
  · exact Or.inr (toB64_mem hb c h)
  · exact Or.inl (List.eq_of_mem_replicate h)

theorem toB64Pad_plain {bs : List Nat} (hb : ∀ b ∈ bs, b < 256) :
    plainStr (toB64Pad bs) := by
  intro c hc
  rcases toB64Pad_mem hb c hc with rfl | ⟨s, rfl⟩
  · exact ⟨by decide, by decide, by decide⟩
  · obtain ⟨h1, h2, h3, h4⟩ := b64c_ascii s
    exact ⟨h2, h3, h4⟩

theorem toB64Pad_ascii {bs : List Nat} (hb : ∀ b ∈ bs, b < 256) :
    ∀ c ∈ toB64Pad bs, c.toNat < 128 := by
  intro c hc
  rcases toB64Pad_mem hb c hc with rfl | ⟨s, rfl⟩
  · decide
  · exact (b64c_ascii s).1

theorem jsonPrint_unsigned_ascii {sd : List Char}
    (hascii : ∀ c ∈ sd, c.toNat < 128) (hplain : plainStr sd) :
    ∀ c ∈ jsonPrintSDJ ⟨sd, none, none⟩, c.toNat < 128 := by
  have hP : jsonPrintSDJ ⟨sd, none, none⟩ =
      "\x7b\"shamir_data\":".toList ++ ('"' :: (sd ++ ['"'])) ++
      ",\"signature\":".toList ++ "null".toList ++
      ",\"proof\":".toList ++ "null".toList ++ ['}'] := by
    unfold jsonPrintSDJ printStr
    rw [escapeStr_plain hplain]
  rw [hP]
  simp only [List.forall_mem_append]
  refine ⟨⟨⟨⟨⟨⟨by decide, ?_⟩, by decide⟩, by decide⟩, by decide⟩, by decide⟩,
    by decide⟩
  intro c hc
  rcases List.mem_cons.mp hc with rfl | hc
  · decide
  rcases List.mem_append.mp hc with hc | hc
  · exact hascii c hc
  · rcases List.mem_singleton.mp hc with rfl
    decide

theorem toB64_chars {bs : List Nat} (hb : ∀ b ∈ bs, b < 256) :
    ∀ c ∈ toB64 bs, ¬ isWS c ∧ c ≠ '-' := by
  intro c hc
  obtain ⟨s, rfl⟩ := toB64_mem hb c hc
  have h := b64c_plain s
  exact ⟨h.2.2.2.2, h.1⟩

/-- Parsing a freshly serialized unsigned share recovers the payload, the
threshold and the share number, in either format. -/
theorem share_parse_print (payload : List Nat) (k i idx : Nat)
    (fmt : ShareFormatKind)
    (hp : ∀ b ∈ payload, b < 256) (hk1 : 1 ≤ k) (hk2 : k ≤ 255)
    (hi1 : 1 ≤ i) (hi2 : i ≤ 255) :
    share_from_string_format (share_string_from payload k i fmt none) idx
      false fmt = RResult.ok (payload, k, i, none) := by
  have hbody : ∀ b ∈ serializedBody payload none fmt, b < 256 := by
    cases fmt
    · exact pbEncode_unsigned_lt payload hp
    · exact fun b hb => utf8Encode_lt _ b hb
  have hKf := natToChars_facts hk2
  have hIf := natToChars_facts hi2
  have hb64 := toB64_chars hbody
  rw [share_string_from_shape]
  unfold share_from_string_format
  rw [List.append_assoc, List.cons_append]
  have hnoWS : ∀ c ∈ natToChars k ++ '-' :: (natToChars i ++
      '-' :: toB64 (serializedBody payload none fmt)), ¬ isWS c := by
    intro c hc
    rcases List.mem_append.mp hc with h | h
    · exact (hKf c h).2.1
    · rcases List.mem_cons.mp h with rfl | h
      · decide
      · rcases List.mem_append.mp h with h | h
        · exact (hIf c h).2.1
        · rcases List.mem_cons.mp h with rfl | h
          · decide
          · exact (hb64 c h).1
  rw [trim_of_no_ws hnoWS,
    splitOn_three (fun c hc => (hKf c hc).2.2) (fun c hc => (hIf c hc).2.2)
      (fun c hc => (hb64 c hc).2)]
  unfold share_from_string_parts
  rw [if_neg (by simp)]
  simp only [List.getD_cons_zero, List.getD_cons_succ]
  rw [parseU8_natToChars ⟨k, by omega⟩]
  simp only []
  rw [parseU8_natToChars ⟨i, by omega⟩]
  simp only []
  rw [if_neg (by omega)]
  rw [fromB64_toB64 hbody]
  cases fmt with
  | Protobuf =>
    show protobuf_share_from_string (pbEncode ⟨payload, [], none⟩) idx
      false k i = _
    unfold protobuf_share_from_string
    rw [pbParse_pbEncode_unsigned]
    rfl
  | Json =>
    show json_share_from_string
      (utf8Encode (jsonPrintSDJ ⟨toB64Pad payload, none, none⟩)) idx
      false k i = _
    unfold json_share_from_string
    rw [utf8Decode_ascii (jsonPrint_unsigned_ascii (toB64Pad_ascii hp)
      (toB64Pad_plain hp))]
    simp only []
    rw [jsonParseSDJ_print_unsigned (toB64Pad_plain hp)]
    simp only []
    rw [fromB64Pad_toB64Pad hp]
    rfl

theorem replicate_getD_none (n i : Nat) :
    (List.replicate n (none : Option SigPair)).getD i none = none := by
  rcases Nat.lt_or_ge i n with h | h
  · rw [List.getD_eq_getElem _ _ (by simpa using h)]
    simp
  · rw [List.getD_eq_default _ _ (by simpa using h)]

theorem mapIdx_map_range {α β : Type} (n : Nat) (f : Nat → α)
    (g : Nat → α → β) :
    ((List.range n).map f).mapIdx g = (List.range n).map (fun j => g j (f j)) := by
  apply List.ext_getElem
  · simp
  · intro j h1 h2
    simp only [List.getElem_mapIdx, List.getElem_map, List.getElem_range]

/-- The generator's output in the unsigned case in closed form. -/
theorem generate_shares_unsigned_nf (k n : Nat) (S : List Nat)
    (fmt : ShareFormatKind) (rand : Nat → Nat → Nat)
    (signer : List (List Nat) → List SigPair)
    (hkn : ¬ k > n) (hk : ¬ (k = 0 ∧ S ≠ [])) :
    generate_shares_format k n S false fmt rand signer =
    RResult.ok ((shareRows S k n rand).mapIdx fun i sh =>
      share_string_from sh k (i + 1) fmt none) := by
  unfold generate_shares_format
  rw [if_neg hkn, secret_share_eq hk]
  show RResult.ok ((List.zip ((shareRows S k n rand).mapIdx fun i sh => (i, sh))
      ((if false then some ((signer ((shareRows S k n rand).mapIdx fun i x =>
        format_share_for_signing k (i + 1) x)).map some) else none).getD
        (List.replicate n none))).map
      (fun p => share_string_from p.1.2 k (p.1.1 + 1) fmt p.2)) = _
  have hgetd : (if false then some ((signer ((shareRows S k n rand).mapIdx fun i x =>
      format_share_for_signing k (i + 1) x)).map some) else none).getD
      (List.replicate n none) = List.replicate n (none : Option SigPair) := rfl
  rw [hgetd, generate_zip_nf k fmt _ _ (by
    rw [shareRows_length, List.length_replicate])]
  have hfun : (fun (i : Nat) (sh : List Nat) => share_string_from sh k (i + 1) fmt
      ((List.replicate n (none : Option SigPair)).getD i none)) =
      fun i sh => share_string_from sh k (i + 1) fmt none :=
    funext fun i => funext fun sh => by rw [replicate_getD_none]
  rw [hfun]

theorem parseAllShares_ok (l : List (List Char)) (v : Bool)
    (fmt : ShareFormatKind) : ∀ (idx : Nat)
    (ps : List (List Nat × Nat × Nat × Option SigPair)),
    ps.length = l.length →
    (∀ j (hj : j < l.length) (hj' : j < ps.length),
      share_from_string_format (l.get ⟨j, hj⟩) (idx + j) v fmt =
        RResult.ok (ps.get ⟨j, hj'⟩)) →
    parseAllShares l v fmt idx = RResult.ok ps := by
  induction l with
  | nil =>
    intro idx ps hlen h
    cases ps with
    | nil => rfl
    | cons p ps' => simp at hlen
  | cons s rest ih =>
    intro idx ps hlen h
    cases ps with
    | nil => simp at hlen
    | cons p ps' =>
      have h0 : share_from_string_format s idx v fmt = RResult.ok p :=
        h 0 (by simp) (by simp)
      simp only [parseAllShares]
      rw [h0]
      rw [ih (idx + 1) ps' (by simpa using hlen) ?_]
      intro j hj hj'
      have he : idx + 1 + j = idx + (j + 1) := by omega
      rw [he]
      exact h (j + 1) (by simpa using hj) (by simpa using hj')

theorem headD_eq_getD {α : Type} (l : List α) (d : α) :
    l.headD d = l.getD 0 d := by
  cases l <;> rfl

theorem row_lt (S : List Nat) (k n : Nat) (rand : Nat → Nat → Nat) (j : Nat) :
    ∀ b ∈ (List.range S.length).map (fun c =>
      (encode (col_in S k rand c) n).getD j 0), b < 256 := by
  intro b hb
  obtain ⟨c, hc, rfl⟩ := List.mem_map.mp hb
  rcases Nat.lt_or_ge j (encode (col_in S k rand c) n).length with h | h
  · rw [List.getD_eq_getElem _ _ h]
    have he : (encode (col_in S k rand c) n)[j] =
        (evalPoly ((col_in S k rand c).map gfOfNat) (gfOfNat (j + 1))).val := by
      simp only [encode, List.getElem_map, List.getElem_range]
    rw [he]
    exact (evalPoly ((col_in S k rand c).map gfOfNat) (gfOfNat (j + 1))).lt
  · rw [List.getD_eq_default _ _ (by omega)]
    omega

/-- The payload of the share with 0-based row index j. -/
def rowOf (S : List Nat) (k n : Nat) (rand : Nat → Nat → Nat) (j : Nat) :
    List Nat :=
  (List.range S.length).map (fun c => (encode (col_in S k rand c) n).getD j 0)

theorem shareRows_eq_map (S : List Nat) (k n : Nat)
    (rand : Nat → Nat → Nat) :
    shareRows S k n rand = (List.range n).map (rowOf S k n rand) := rfl

theorem rowOf_length (S : List Nat) (k n : Nat) (rand : Nat → Nat → Nat)
    (j : Nat) : (rowOf S k n rand j).length = S.length := by
  simp [rowOf]

theorem map_range_getD (l : List Nat) :
    (List.range l.length).map (fun c => l.getD c 0) = l := by
  apply List.ext_getElem
  · simp
  · intro i h1 h2
    simp only [List.getElem_map, List.getElem_range]
    rw [List.getD_eq_getElem _ _ h2]

theorem parse_generated (k n : Nat) (S : List Nat) (fmt : ShareFormatKind)
    (rand : Nat → Nat → Nat)
    (hk : 1 ≤ k) (hkn : k ≤ n) (hn : n ≤ 255) :
    parseAllShares ((List.range n).map (fun j =>
        share_string_from (rowOf S k n rand j) k (j + 1) fmt none))
        false fmt 0 =
      RResult.ok ((List.range n).map (fun j =>
        (rowOf S k n rand j, k, j + 1, none))) := by
  apply parseAllShares_ok
  · simp
  · intro j hj hj'
    have hjn : j < n := by simpa using hj
    have hl : ((List.range n).map (fun j =>
        share_string_from (rowOf S k n rand j) k (j + 1) fmt none)).get
        ⟨j, hj⟩ = share_string_from (rowOf S k n rand j) k (j + 1) fmt none := by
      simp
    have hp : ((List.range n).map (fun j =>
        ((rowOf S k n rand j, k, j + 1, none) :
          List Nat × Nat × Nat × Option SigPair))).get ⟨j, hj'⟩ =
        (rowOf S k n rand j, k, j + 1, none) := by
      simp
    rw [hl, hp]
    exact share_parse_print (rowOf S k n rand j) k (j + 1) (0 + j) fmt
      (row_lt S k n rand j) hk (by omega) (by omega) (by omega)

theorem validate_generated (k n : Nat) (S : List Nat) (fmt : ShareFormatKind)
    (rand : Nat → Nat → Nat) (sigOk : List Nat → SigPair → Bool)
    (hk : 1 ≤ k) (hkn : k ≤ n) (hn : n ≤ 255) (hS1 : 1 ≤ S.length) :
    process_and_validate_shares ((List.range n).map (fun j =>
        share_string_from (rowOf S k n rand j) k (j + 1) fmt none))
        false fmt sigOk =
      RResult.ok (k, (List.range n).map (fun j =>
        (j + 1, rowOf S k n rand j))) := by
  unfold process_and_validate_shares
  rw [if_neg (by
    intro hc
    have := congrArg List.length hc
    simp at this
    omega)]
  rw [parse_generated k n S fmt rand hk hkn hn]
  simp only []
  have hhead : (((List.range n).map (fun j =>
      ((rowOf S k n rand j, k, j + 1, none) :
        List Nat × Nat × Nat × Option SigPair))).headD ([], 0, 0, none)) =
      (rowOf S k n rand 0, k, 0 + 1, none) := by
    rw [headD_eq_getD, getD_map_range n 0 _ _ (by omega)]
  rw [hhead]
  have hall1 : ((List.range n).map (fun j =>
      ((rowOf S k n rand j, k, j + 1, none) :
        List Nat × Nat × Nat × Option SigPair))).all
      (fun p => decide (p.2.1 = ((rowOf S k n rand 0, k, 0 + 1, none) :
        List Nat × Nat × Nat × Option SigPair).2.1)) = true := by
    simp only [List.all_eq_true, decide_eq_true_eq]
    intro p hp
    obtain ⟨j, hj, rfl⟩ := List.mem_map.mp hp
    rfl
  rw [if_neg (not_not_intro hall1)]
  have hall2 : ((List.range n).map (fun j =>
      ((rowOf S k n rand j, k, j + 1, none) :
        List Nat × Nat × Nat × Option SigPair))).all
      (fun p => decide (p.1.length =
        ((rowOf S k n rand 0, k, 0 + 1, none) :
          List Nat × Nat × Nat × Option SigPair).1.length)) = true := by
    simp only [List.all_eq_true, decide_eq_true_eq]
    intro p hp
    obtain ⟨j, hj, rfl⟩ := List.mem_map.mp hp
    simp [rowOf_length]
  rw [if_neg (not_not_intro hall2)]
  have hnodup : (((List.range n).map (fun j =>
      ((rowOf S k n rand j, k, j + 1, none) :
        List Nat × Nat × Nat × Option SigPair))).map
      (fun p => p.2.2.1)).Nodup := by
    rw [List.map_map]
    exact List.Nodup.map (fun a b hab => by
      have h' : a + 1 = b + 1 := hab
      omega) (List.nodup_range n)
  rw [if_neg (not_not_intro hnodup)]
  rw [if_neg (show ¬ (((List.range n).map (fun j =>
      ((rowOf S k n rand j, k, j + 1, none) :
        List Nat × Nat × Nat × Option SigPair))).length <
      ((rowOf S k n rand 0, k, 0 + 1, none) :
        List Nat × Nat × Nat × Option SigPair).2.1) by simp; omega)]
  rw [if_neg (show ¬ (false = true) by decide)]
  rw [List.map_map]
  rfl

/-- C1: the unsigned round trip — recovering from the full generated share
set returns the secret, for every threshold 1 ≤ k ≤ n ≤ 255, every byte
secret of length 1..4096, and both share formats. -/
theorem claim_C1 (k n : Nat) (S : List Nat) (fmt : ShareFormatKind)
    (rand : Nat → Nat → Nat) (signer : List (List Nat) → List SigPair)
    (sigOk : List Nat → SigPair → Bool) (strs : List (List Char))
    (hk : 1 ≤ k) (hkn : k ≤ n) (hn : n ≤ 255)
    (hS1 : 1 ≤ S.length) (hS2 : S.length ≤ 4096) (hS256 : ∀ b ∈ S, b < 256)
    (hgen : generate_shares_format k n S false fmt rand signer =
      RResult.ok strs) :
    recover_secret_format strs false fmt sigOk = RResult.ok S := by
  have hnf := generate_shares_unsigned_nf k n S fmt rand signer (by omega)
    (by rintro ⟨rfl, -⟩; omega)
  rw [hgen] at hnf
  injection hnf with hstrs
  subst hstrs
  rw [shareRows_eq_map, mapIdx_map_range]
  have hval := validate_generated k n S fmt rand sigOk hk hkn hn hS1
  rw [recover_of_validate _ false fmt sigOk k _ hval]
  have hheadL : (((List.range n).map (fun j =>
      ((j + 1, rowOf S k n rand j) : Nat × List Nat))).headD (0, [])).2.length
      = S.length := by
    rw [headD_eq_getD, getD_map_range n 0 _ _ (by omega)]
    simp [rowOf_length]
  rw [hheadL]
  have htake : (((List.range n).map (fun j =>
      ((j + 1, rowOf S k n rand j) : Nat × List Nat))).take k) =
      (List.range k).map (fun j => (j + 1, rowOf S k n rand j)) := by
    rw [← List.map_take, List.take_range, min_eq_left hkn]
  rw [htake]
  simp only [List.map_map]
  congr 1
  have hpoint : ∀ c ∈ List.range S.length,
      lagrange_interpolate ((List.range k).map
        ((fun s => (s.1, s.2.getD c 0)) ∘
          (fun j => ((j + 1, rowOf S k n rand j) : Nat × List Nat)))) =
      S.getD c 0 := by
    intro c hc
    have hcS : c < S.length := List.mem_range.mp hc
    have hmapcomp : ((List.range k).map ((fun s => (s.1, s.2.getD c 0)) ∘
        (fun j => ((j + 1, rowOf S k n rand j) : Nat × List Nat)))) =
        (List.range k).map (fun j => (j + 1,
          (evalPoly ((col_in S k rand c).map gfOfNat) (gfOfNat (j + 1))).val)) := by
      apply List.map_eq_map_iff.mpr
      intro j hj
      have hjk : j < k := List.mem_range.mp hj
      show ((j + 1 : Nat), (rowOf S k n rand j).getD c 0) = _
      congr 1
      unfold rowOf
      rw [getD_map_range S.length c _ 0 hcS]
      show (encode (col_in S k rand c) n).getD j 0 = _
      unfold encode
      rw [getD_map_range n j _ 0 (by omega)]
    rw [hmapcomp]
    unfold lagrange_interpolate
    rw [List.map_map]
    have hmap2 : ((List.range k).map ((fun p => (gfOfNat p.1, gfOfNat p.2)) ∘
        (fun j => ((j + 1,
          (evalPoly ((col_in S k rand c).map gfOfNat) (gfOfNat (j + 1))).val) :
          Nat × Nat)))) =
        (List.range k).map (fun j => (gfOfNat (j + 1),
          evalPoly ((col_in S k rand c).map gfOfNat) (gfOfNat (j + 1)))) := by
      apply List.map_eq_map_iff.mpr
      intro j hj
      show (gfOfNat (j + 1), gfOfNat ((evalPoly ((col_in S k rand c).map gfOfNat)
        (gfOfNat (j + 1))).val)) = _
      rw [gfOfNat_val_eq]
    rw [hmap2]
    rw [lagrangeGF_correct ((col_in S k rand c).map gfOfNat) k
      (by simp only [col_in, List.length_map, List.length_cons,
        List.length_range]; omega) hk (by omega)]
    show ((gfOfNat (S.getD c 0) ::
      ((List.range (k - 1)).map (rand c)).map gfOfNat).headD 0).val = S.getD c 0
    rw [List.headD_cons]
    exact gfOfNat_val (by
      rw [List.getD_eq_getElem _ _ hcS]
      exact hS256 _ (List.getElem_mem _))
  rw [List.map_eq_map_iff.mpr hpoint]
  exact map_range_getD S

theorem claim_C1_witness :
    generate_shares_format 1 1 [7] false ShareFormatKind.Protobuf
        (fun _ _ => 0) (fun _ => []) = RResult.ok ["1-1-CgEH".toList] ∧
    recover_secret_format ["1-1-CgEH".toList] false ShareFormatKind.Protobuf
        (fun _ _ => true) = RResult.ok [7] :=
  ⟨by decide,
   claim_C1 1 1 [7] ShareFormatKind.Protobuf (fun _ _ => 0) (fun _ => [])
     (fun _ _ => true) ["1-1-CgEH".toList] (by decide) (by decide) (by decide)
     (by decide) (by decide) (by decide) (by decide)⟩
